import Mathlib

set_option maxRecDepth 40000

/-!
# Verification of a field-element SHA-256 simulation

This file embeds the bit-sliced SHA-256 implementation (files
`sha_helpers.rs`, `native_sha256.rs`, `dynamic_sha256.rs`) in Lean 4 and
proves the specification's claims about it.

The Rust code is generic over an `ark_ff::PrimeField` `F`; every bit is
stored as a field element constrained to 0 or 1, and a 32-bit word is an
array `[F; 32]` in big-endian bit order.  We model the field as `ZMod p`
for a parameter `p` (the canonical-representative order `>=` used by
`wrapping_add` becomes comparison of `ZMod.val`), raw bit vectors
(`Vec<u8>` in Rust) as `List Nat`, words as `List (ZMod p)` of length 32,
and the 8-word state as `List (List (ZMod p))`.  Panics (`assert!`,
capacity overflow) become `Option` failure.
-/

namespace Sha256

/-! ## Bit conversion utilities (src/sha_helpers.rs) -/

/-- One byte to 8 bits, most-significant first: the body of the
`flat_map` in `from_hex` (`(0..8).rev().map(|i| (byte >> i) & 1)`). -/
def byteToBits (byte : Nat) : List Nat :=
  (List.range 8).reverse.map (fun i => (byte >>> i) &&& 1)

/-- A byte string to its bit sequence, as `from_hex` produces after
`hex::decode`. -/
def fromBytes (bytes : List Nat) : List Nat :=
  bytes.flatMap byteToBits

/-- Value of one hexadecimal character (`hex::decode` digit table). -/
def hexDigitVal (c : Char) : Option Nat :=
  if '0' ≤ c ∧ c ≤ '9' then some (c.toNat - 48)
  else if 'a' ≤ c ∧ c ≤ 'f' then some (c.toNat - 87)
  else if 'A' ≤ c ∧ c ≤ 'F' then some (c.toNat - 55)
  else none

/-- `hex::decode`: pairs of hex characters to bytes; fails on an odd
number of characters or a non-hex character. -/
def hexBytes : List Char → Option (List Nat)
  | [] => some []
  | [_] => none
  | c1 :: c2 :: rest => do
      let hi ← hexDigitVal c1
      let lo ← hexDigitVal c2
      let t ← hexBytes rest
      pure ((16 * hi + lo) :: t)

/-- `from_hex`: decodes a hex string and flattens each byte to 8 bits,
big-endian.  The Rust function panics on invalid hex (`expect`), modelled
as `none`. -/
def from_hex (s : String) : Option (List Nat) :=
  (hexBytes s.data).map fromBytes

/-- `to_bits_be`: an integer as a fixed-size big-endian bit array
(`from_fn(|i| ((n >> (N - 1 - i)) & 1))`). -/
def to_bits_be (N : Nat) (n : Nat) : List Nat :=
  (List.range N).map (fun i => (n >>> (N - 1 - i)) &&& 1)

/-- `bits_to_field`: lifts a bit slice into an array of `N` field
elements; indices beyond the input length stay `F::zero()`. -/
def bits_to_field (p : ℕ) (N : Nat) (bits : List Nat) : List (ZMod p) :=
  (List.range N).map (fun i => ((bits.getD i 0 : ℕ) : ZMod p))

/-! ## Padding (src/sha_helpers.rs `sha256_pad`) -/

/-- Number of zero bits the `while padded.len() % 512 != 448` loop
appends to a message of the given current length. -/
def zeroFill (len : Nat) : Nat :=
  (448 + 512 - len % 512) % 512

/-- Length of the minimally padded message for an input of `L` bits:
input, the `1` marker, the zero fill, and the 64-bit length field.
This is the `pre_pad_len` recorded by `sha256_pad`. -/
def pre_pad_len (L : Nat) : Nat :=
  L + 1 + zeroFill (L + 1) + 64

/-- `sha256_pad`: appends the `1` marker, zero-fills to 448 mod 512,
appends the 64-bit big-endian bit length, then zero-fills up to
`max_bits`.  Returns the padded bits and the index where the length
field begins (`pre_pad_len - 64`).  The final `assert_eq!` fails (here:
`none`) exactly when `max_bits` is smaller than `pre_pad_len`. -/
def sha256_pad (input_bits : List Nat) (max_bits : Nat) : Option (List Nat × Nat) :=
  let bit_length := input_bits.length
  let padded := input_bits ++ [1] ++ List.replicate (zeroFill (bit_length + 1)) 0
      ++ to_bits_be 64 bit_length
  if max_bits < padded.length then none
  else
    some (padded ++ List.replicate (max_bits - padded.length) 0, padded.length - 64)

/-! ## Field bitwise algebra (src/sha_helpers.rs) -/

/-- Element-wise AND in the field: `a[i] * b[i]`. -/
def and (p : ℕ) (a b : List (ZMod p)) : List (ZMod p) :=
  List.zipWith (fun x y => x * y) a b

/-- Element-wise NOT in the field: `F::one() - a[i]`. -/
def not (p : ℕ) (a : List (ZMod p)) : List (ZMod p) :=
  a.map (fun x => 1 - x)

/-- Element-wise XOR in the field: `a[i] + b[i] - 2 * (a[i] * b[i])`. -/
def xor (p : ℕ) (a b : List (ZMod p)) : List (ZMod p) :=
  List.zipWith (fun x y => x + y - 2 * (x * y)) a b

/-- `rotate_right`: starts from an all-zero array and writes `word[i]`
into position `(i + rot) % N`, exactly as the Rust loop does. -/
def rotate_right (p : ℕ) (rot : Nat) (word : List (ZMod p)) : List (ZMod p) :=
  (List.range word.length).foldl
    (fun rotated i => rotated.set ((i + rot) % word.length) (word.getD i 0))
    (List.replicate word.length 0)

/-- `right_shift`: positions `[shift, N)` receive `word[0, N - shift)`,
positions below `shift` are zero; for `shift ≥ N` the result is all
zero. -/
def right_shift (p : ℕ) (shift : Nat) (word : List (ZMod p)) : List (ZMod p) :=
  if shift < word.length then
    List.replicate shift 0 ++ word.take (word.length - shift)
  else
    List.replicate word.length 0

/-- The ripple-carry loop of `wrapping_add`, on least-significant-first
(reversed) bit lists: returns the sum bits (LSB first) and the final
carry, which `wrapping_add` discards.  `sum >= two` in `ark_ff` compares
canonical representatives, i.e. `ZMod.val`. -/
def rippleAdd (p : ℕ) : List (ZMod p) → List (ZMod p) → ZMod p → List (ZMod p) × ZMod p
  | x :: xs, y :: ys, carry =>
      let sum := x + y + carry
      let bc : ZMod p × ZMod p :=
        if (2 : ZMod p).val ≤ sum.val then (sum - 2, 1) else (sum, 0)
      let rest := rippleAdd p xs ys bc.2
      (bc.1 :: rest.1, rest.2)
  | _, _, carry => ([], carry)

/-- `wrapping_add`: modular addition of two 32-bit words in binary form,
iterating from index 31 (LSB) down to 0 (MSB) with a single-bit carry;
the carry out of index 0 is dropped. -/
def wrapping_add (p : ℕ) (a b : List (ZMod p)) : List (ZMod p) :=
  ((rippleAdd p a.reverse b.reverse 0).1).reverse

/-! ## Digest utilities (src/sha_helpers.rs) -/

/-- `bits_to_u32`: folds over the word with `acc | (b << (31 - i))`,
where `b` is 0 when the element equals `F::zero()` and 1 otherwise. -/
def bits_to_u32 (p : ℕ) (bits : List (ZMod p)) : Nat :=
  bits.enum.foldl
    (fun acc ib => acc ||| ((if ib.2 = (0 : ZMod p) then 0 else 1) <<< (31 - ib.1))) 0

/-- One hex digit character, lowercase. -/
def hexChar (n : Nat) : Char :=
  if n < 10 then Char.ofNat (48 + n) else Char.ofNat (87 + n)

/-- `format!("{:08x}", n)` for `n < 2^32`: eight lowercase hex digits. -/
def u32ToHex8 (n : Nat) : String :=
  String.mk ((List.range 8).map (fun i => hexChar (n / 16 ^ (7 - i) % 16)))

/-- `digest_to_hex`: each state word through `bits_to_u32`, formatted as
8 hex digits, concatenated. -/
def digest_to_hex (p : ℕ) (H : List (List (ZMod p))) : String :=
  String.join (H.map (fun word => u32ToHex8 (bits_to_u32 p word)))

/-! ## Constants (crate module `constants`, not under src/) -/

/-- Modelled from the spec: `constants.rs` is not among the provided
source files; the spec says the state is "created from the standard
SHA-256 initial constants".  These are the standard `H0..H7`. -/
def initConstNat : List Nat :=
  [1779033703, 3144134277, 1013904242, 2773480762,
   1359893119, 2600822924, 528734635, 1541459225]

/-- Modelled from the spec: `initial_state()` from `constants.rs`, the
standard initial hash values field-encoded as 32-bit big-endian bit
words. -/
def initial_state (p : ℕ) : List (List (ZMod p)) :=
  initConstNat.map (fun n => bits_to_field p 32 (to_bits_be 32 n))

/-- Modelled from the spec: the 64 standard SHA-256 round constants
`K[0..64]` provided by `constants.rs`. -/
def roundConstNat : List Nat :=
  [1116352408, 1899447441, 3049323471, 3921009573,
   961987163, 1508970993, 2453635748, 2870763221,
   3624381080, 310598401, 607225278, 1426881987,
   1925078388, 2162078206, 2614888103, 3248222580,
   3835390401, 4022224774, 264347078, 604807628,
   770255983, 1249150122, 1555081692, 1996064986,
   2554220882, 2821834349, 2952996808, 3210313671,
   3336571891, 3584528711, 113926993, 338241895,
   666307205, 773529912, 1294757372, 1396182291,
   1695183700, 1986661051, 2177026350, 2456956037,
   2730485921, 2820302411, 3259730800, 3345764771,
   3516065817, 3600352804, 4094571909, 275423344,
   430227734, 506948616, 659060556, 883997877,
   958139571, 1322822218, 1537002063, 1747873779,
   1955562222, 2024104815, 2227730452, 2361852424,
   2428436474, 2756734187, 3204031479, 3329325298]

/-- Modelled from the spec: `round_constants()` from `constants.rs`,
the round-constant table field-encoded once. -/
def round_constants (p : ℕ) : List (List (ZMod p)) :=
  roundConstNat.map (fun n => bits_to_field p 32 (to_bits_be 32 n))

/-! ## Compression core (src/native_sha256.rs, src/dynamic_sha256.rs) -/

/-- An all-zero word, the `getD` default (never actually selected on
in-range indices). -/
def zeroWord (p : ℕ) : List (ZMod p) :=
  List.replicate 32 0

/-- One iteration of the message-schedule loop (`for i in 16..64`):
appends `W[i] = add(add(s1, W[i-7]), add(s0, W[i-16]))`. -/
def scheduleStep (p : ℕ) (W : List (List (ZMod p))) (i : Nat) : List (List (ZMod p)) :=
  let wm15 := W.getD (i - 15) (zeroWord p)
  let wm2 := W.getD (i - 2) (zeroWord p)
  let s0 := xor p (xor p (rotate_right p 7 wm15) (rotate_right p 18 wm15))
      (right_shift p 3 wm15)
  let s1 := xor p (xor p (rotate_right p 17 wm2) (rotate_right p 19 wm2))
      (right_shift p 10 wm2)
  W ++ [wrapping_add p (wrapping_add p s1 (W.getD (i - 7) (zeroWord p)))
      (wrapping_add p s0 (W.getD (i - 16) (zeroWord p)))]

/-- Message schedule `W[0..64]`: the 512 chunk bits as 16 words, then
the schedule loop for `i` in `16..64`. -/
def scheduleW (p : ℕ) (bits : List Nat) : List (List (ZMod p)) :=
  let field_values := bits_to_field p 512 bits
  let W0 := (List.range 16).map (fun i => (field_values.drop (32 * i)).take 32)
  (List.range' 16 48).foldl (scheduleStep p) W0

/-- The eight working variables `a..h` of the compression loop. -/
structure Regs (p : ℕ) where
  a : List (ZMod p)
  b : List (ZMod p)
  c : List (ZMod p)
  d : List (ZMod p)
  e : List (ZMod p)
  f : List (ZMod p)
  g : List (ZMod p)
  h : List (ZMod p)

/-- One round of the compression loop body. -/
def roundStep (p : ℕ) (K W : List (List (ZMod p))) (r : Regs p) (i : Nat) : Regs p :=
  let S1 := xor p (xor p (rotate_right p 6 r.e) (rotate_right p 11 r.e))
      (rotate_right p 25 r.e)
  let Ch := xor p (and p r.e r.f) (and p (not p r.e) r.g)
  let T1 := wrapping_add p
      (wrapping_add p (wrapping_add p (wrapping_add p r.h S1) Ch) (K.getD i (zeroWord p)))
      (W.getD i (zeroWord p))
  let S0 := xor p (xor p (rotate_right p 2 r.a) (rotate_right p 13 r.a))
      (rotate_right p 22 r.a)
  let Maj := xor p (xor p (and p r.a r.b) (and p r.a r.c)) (and p r.b r.c)
  let T2 := wrapping_add p S0 Maj
  ⟨wrapping_add p T1 T2, r.a, r.b, r.c, wrapping_add p r.d T1, r.e, r.f, r.g⟩

/-- `NativeSha256::process_chunk`: message schedule, 64 mixing rounds,
state update. -/
def NativeSha256.process_chunk (p : ℕ) (bits : List Nat)
    (state : List (List (ZMod p))) (K : List (List (ZMod p))) : List (List (ZMod p)) :=
  let W := scheduleW p bits
  let r0 : Regs p :=
    ⟨state.getD 0 (zeroWord p), state.getD 1 (zeroWord p), state.getD 2 (zeroWord p),
     state.getD 3 (zeroWord p), state.getD 4 (zeroWord p), state.getD 5 (zeroWord p),
     state.getD 6 (zeroWord p), state.getD 7 (zeroWord p)⟩
  let r := (List.range 64).foldl (roundStep p K W) r0
  [wrapping_add p r.a (state.getD 0 (zeroWord p)),
   wrapping_add p r.b (state.getD 1 (zeroWord p)),
   wrapping_add p r.c (state.getD 2 (zeroWord p)),
   wrapping_add p r.d (state.getD 3 (zeroWord p)),
   wrapping_add p r.e (state.getD 4 (zeroWord p)),
   wrapping_add p r.f (state.getD 5 (zeroWord p)),
   wrapping_add p r.g (state.getD 6 (zeroWord p)),
   wrapping_add p r.h (state.getD 7 (zeroWord p))]

/-- `self.padded_preimage.chunks(512)`. -/
def chunks512 (l : List Nat) : List (List Nat) :=
  (List.range ((l.length + 511) / 512)).map (fun i => (l.drop (512 * i)).take 512)

/-- `NativeSha256::hash`: asserts 512-bit alignment (modelled as the
`Option` guard), starts from the standard initial state, and compresses
the chunks in order. -/
def NativeSha256.hash (p : ℕ) (padded_preimage : List Nat) :
    Option (List (List (ZMod p))) :=
  if padded_preimage.length % 512 = 0 then
    some ((chunks512 padded_preimage).foldl
      (fun state chunk => NativeSha256.process_chunk p chunk state (round_constants p))
      (initial_state p))
  else none

/-- `DynamicSha256::process_chunk`: textually the same algorithm as the
native one (the source duplicates it), with the state held in the
struct. -/
def DynamicSha256.process_chunk (p : ℕ) (bits : List Nat)
    (state : List (List (ZMod p))) (K : List (List (ZMod p))) : List (List (ZMod p)) :=
  let W := scheduleW p bits
  let r0 : Regs p :=
    ⟨state.getD 0 (zeroWord p), state.getD 1 (zeroWord p), state.getD 2 (zeroWord p),
     state.getD 3 (zeroWord p), state.getD 4 (zeroWord p), state.getD 5 (zeroWord p),
     state.getD 6 (zeroWord p), state.getD 7 (zeroWord p)⟩
  let r := (List.range 64).foldl (roundStep p K W) r0
  [wrapping_add p r.a (state.getD 0 (zeroWord p)),
   wrapping_add p r.b (state.getD 1 (zeroWord p)),
   wrapping_add p r.c (state.getD 2 (zeroWord p)),
   wrapping_add p r.d (state.getD 3 (zeroWord p)),
   wrapping_add p r.e (state.getD 4 (zeroWord p)),
   wrapping_add p r.f (state.getD 5 (zeroWord p)),
   wrapping_add p r.g (state.getD 6 (zeroWord p)),
   wrapping_add p r.h (state.getD 7 (zeroWord p))]

/-- `DynamicSha256::new(...).hash()`: state is `init_state` when given,
otherwise the standard initial state; `digest_index` is stored but never
read by hashing. -/
def DynamicSha256.hash (p : ℕ) (padded_preimage : List Nat) (digest_index : Nat)
    (init_state : Option (List (List (ZMod p)))) : Option (List (List (ZMod p))) :=
  if padded_preimage.length % 512 = 0 then
    some ((chunks512 padded_preimage).foldl
      (fun state chunk => DynamicSha256.process_chunk p chunk state (round_constants p))
      (init_state.getD (initial_state p)))
  else none

/-! ## Specification-side definitions

These definitions translate the specification's wording, to be compared
with the definitions above that were translated from the source. -/

/-- The 64-bit big-endian encoding of `L` demanded by the spec's padding
description: bit `i` (from the most significant end) is `L / 2^(63-i) % 2`. -/
def specLenFieldBE (L : Nat) : List Nat :=
  (List.range 64).map (fun i => L / 2 ^ (63 - i) % 2)

/-! ## Padding lemmas -/

theorem to_bits_be_length (N n : Nat) : (to_bits_be N n).length = N := by
  simp [to_bits_be]

theorem zeroFill_mod (len : Nat) : (len + zeroFill len) % 512 = 448 := by
  unfold zeroFill
  omega

theorem pre_pad_len_mod (L : Nat) : pre_pad_len L % 512 = 0 := by
  unfold pre_pad_len zeroFill
  omega

/-- The bits `sha256_pad` assembles before the capacity fill. -/
def minPadded (input : List Nat) : List Nat :=
  input ++ [1] ++ List.replicate (zeroFill (input.length + 1)) 0
    ++ to_bits_be 64 input.length

theorem minPadded_length (input : List Nat) :
    (minPadded input).length = pre_pad_len input.length := by
  simp [minPadded, pre_pad_len, to_bits_be_length]
  omega

theorem sha256_pad_eq (input : List Nat) (max_bits : Nat) :
    sha256_pad input max_bits =
      if max_bits < pre_pad_len input.length then none
      else some (minPadded input
          ++ List.replicate (max_bits - pre_pad_len input.length) 0,
        pre_pad_len input.length - 64) := by
  show (if max_bits < (minPadded input).length then none
      else some (minPadded input
          ++ List.replicate (max_bits - (minPadded input).length) 0,
        (minPadded input).length - 64)) = _
  rw [minPadded_length]

theorem to_bits_be_eq_spec (L : Nat) : to_bits_be 64 L = specLenFieldBE L := by
  unfold to_bits_be specLenFieldBE
  refine List.map_congr_left (fun i _ => ?_)
  rw [Nat.and_one_is_mod, Nat.shiftRight_eq_div_pow]

/-- Claim C2: for every raw bit sequence of length `L` and capacity at
least the minimally padded length `pre_pad_len L`, `sha256_pad` returns
a bit sequence of length exactly `max_bits` with
`digest_index = pre_pad_len L - 64`; bits `[0, digest_index)` are the
input, the single `1` marker, and the zero fill; bits
`[digest_index, digest_index + 64)` are the 64-bit big-endian encoding
of `L`; and the bits from `digest_index + 64` to `max_bits` are zero. -/
theorem sha256_pad_correct (input : List Nat) (max_bits : Nat)
    (hL : input.length < 2 ^ 64)
    (hC : pre_pad_len input.length ≤ max_bits) :
    ∃ padded,
      sha256_pad input max_bits
          = some (padded, pre_pad_len input.length - 64) ∧
      padded.length = max_bits ∧
      padded.take (pre_pad_len input.length - 64)
          = input ++ [1] ++ List.replicate (zeroFill (input.length + 1)) 0 ∧
      (padded.drop (pre_pad_len input.length - 64)).take 64
          = specLenFieldBE input.length ∧
      padded.drop (pre_pad_len input.length - 64 + 64)
          = List.replicate (max_bits - pre_pad_len input.length) 0 := by
  clear hL
  rw [sha256_pad_eq, if_neg (by omega)]
  have hAlen : (input ++ [1]
      ++ List.replicate (zeroFill (input.length + 1)) 0).length
      = pre_pad_len input.length - 64 := by
    simp [pre_pad_len]
    omega
  have hsplit : minPadded input
        ++ List.replicate (max_bits - pre_pad_len input.length) 0
      = (input ++ [1] ++ List.replicate (zeroFill (input.length + 1)) 0)
        ++ (to_bits_be 64 input.length
          ++ List.replicate (max_bits - pre_pad_len input.length) 0) := by
    simp [minPadded]
  refine ⟨_, rfl, ?_, ?_, ?_, ?_⟩
  · simp [minPadded_length]
    omega
  · rw [hsplit, List.take_left' hAlen]
  · rw [hsplit, List.drop_left' hAlen,
      List.take_left' (to_bits_be_length 64 input.length), to_bits_be_eq_spec]
  · have hfix : pre_pad_len input.length - 64 + 64 = pre_pad_len input.length := by
      unfold pre_pad_len
      omega
    have hsplit2 : minPadded input
          ++ List.replicate (max_bits - pre_pad_len input.length) 0
        = ((input ++ [1] ++ List.replicate (zeroFill (input.length + 1)) 0)
            ++ to_bits_be 64 input.length)
          ++ List.replicate (max_bits - pre_pad_len input.length) 0 := by
      simp [minPadded]
    have hABlen : ((input ++ [1] ++ List.replicate (zeroFill (input.length + 1)) 0)
        ++ to_bits_be 64 input.length).length = pre_pad_len input.length := by
      simp [to_bits_be_length, pre_pad_len]
      omega
    rw [hfix, hsplit2, List.drop_left' hABlen]

theorem sha256_pad_correct_witness :
    ([] : List Nat).length < 2 ^ 64 ∧ pre_pad_len ([] : List Nat).length ≤ 1024 ∧
    (∃ padded,
      sha256_pad [] 1024 = some (padded, pre_pad_len ([] : List Nat).length - 64) ∧
      padded.length = 1024 ∧
      padded.take (pre_pad_len ([] : List Nat).length - 64)
          = [] ++ [1] ++ List.replicate (zeroFill (([] : List Nat).length + 1)) 0 ∧
      (padded.drop (pre_pad_len ([] : List Nat).length - 64)).take 64
          = specLenFieldBE ([] : List Nat).length ∧
      padded.drop (pre_pad_len ([] : List Nat).length - 64 + 64)
          = List.replicate (1024 - pre_pad_len ([] : List Nat).length) 0) :=
  ⟨by decide, by decide, sha256_pad_correct [] 1024 (by decide) (by decide)⟩

/-- Claim C6: `sha256_pad` fails exactly when `max_bits` is smaller than
the minimally padded length `pre_pad_len`, and returns normally
otherwise. -/
theorem sha256_pad_none_iff (input : List Nat) (max_bits : Nat) :
    sha256_pad input max_bits = none ↔ max_bits < pre_pad_len input.length := by
  rw [sha256_pad_eq]
  by_cases h : max_bits < pre_pad_len input.length <;> simp [h]

/-- Claim C7 is false as stated: `sha256_pad` succeeds on capacity 513
(for the empty input the minimal padded length is 512), yet the
returned sequence has length 513, which is not a multiple of 512. -/
theorem sha256_pad_not_block_aligned :
    (sha256_pad [] 513).isSome = true ∧
    ((sha256_pad [] 513).getD ([], 0)).1.length % 512 = 1 := by
  constructor <;> decide

/-- Claim C7 (amended): whenever `sha256_pad` succeeds, the returned
sequence has length exactly `max_bits`, and the minimally padded region
(up to `digest_index + 64`) has length a multiple of 512; hence the
returned length is a multiple of 512 exactly when the requested
capacity is. -/
theorem sha256_pad_length_eq_max (input : List Nat) (max_bits : Nat)
    (padded : List Nat) (di : Nat)
    (h : sha256_pad input max_bits = some (padded, di)) :
    padded.length = max_bits ∧ (di + 64) % 512 = 0 ∧
      (max_bits % 512 = 0 → padded.length % 512 = 0) := by
  rw [sha256_pad_eq] at h
  by_cases hlt : max_bits < pre_pad_len input.length
  · rw [if_pos hlt] at h
    cases h
  · rw [if_neg hlt] at h
    simp only [Option.some.injEq, Prod.mk.injEq] at h
    obtain ⟨h1, h2⟩ := h
    subst h1
    subst h2
    have hlen : (minPadded input
        ++ List.replicate (max_bits - pre_pad_len input.length) 0).length
        = max_bits := by
      simp [minPadded_length]
      omega
    refine ⟨hlen, ?_, fun hm => by omega⟩
    have := pre_pad_len_mod input.length
    have h64 : 64 ≤ pre_pad_len input.length := by
      unfold pre_pad_len
      omega
    omega

theorem sha256_pad_length_eq_max_witness :
    ([1, 0, 1].length % 512 = 3) ∧
    (sha256_pad [1, 0, 1] 512
        = some (((sha256_pad [1, 0, 1] 512).getD ([], 0)).1, 448)) ∧
    ((sha256_pad [1, 0, 1] 512).getD ([], 0)).1.length = 512 ∧
      (448 + 64) % 512 = 0 ∧
      (512 % 512 = 0 →
        ((sha256_pad [1, 0, 1] 512).getD ([], 0)).1.length % 512 = 0) := by
  refine ⟨by decide, by decide, ?_⟩
  exact sha256_pad_length_eq_max [1, 0, 1] 512 _ 448 (by decide)

/-! ## Bit values in the field -/

/-- A field element that encodes a single binary digit. -/
def isBit (p : ℕ) (x : ZMod p) : Prop := x = 0 ∨ x = 1

/-- Every element of the list encodes a bit. -/
def allBits (p : ℕ) (l : List (ZMod p)) : Prop := ∀ x ∈ l, isBit p x

instance (p : ℕ) (x : ZMod p) : Decidable (isBit p x) := by
  unfold isBit
  infer_instance

instance (p : ℕ) (l : List (ZMod p)) : Decidable (allBits p l) := by
  unfold allBits
  infer_instance

theorem val_natCast_small {p : ℕ} (hp : 0 < p) {n : Nat} (hn : n < p) :
    ((n : ZMod p)).val = n := by
  haveI : NeZero p := ⟨by omega⟩
  rw [ZMod.val_natCast, Nat.mod_eq_of_lt hn]

theorem val_zero' {p : ℕ} (hp : 3 < p) : (0 : ZMod p).val = 0 := by
  haveI : NeZero p := ⟨by omega⟩
  exact ZMod.val_zero

theorem val_one' {p : ℕ} (hp : 3 < p) : (1 : ZMod p).val = 1 := by
  have h := val_natCast_small (p := p) (by omega) (n := 1) (by omega)
  simpa using h

theorem val_two' {p : ℕ} (hp : 3 < p) : (2 : ZMod p).val = 2 := by
  have h := val_natCast_small (p := p) (by omega) (n := 2) (by omega)
  simpa using h

theorem val_three' {p : ℕ} (hp : 3 < p) : (3 : ZMod p).val = 3 := by
  have h := val_natCast_small (p := p) (by omega) (n := 3) (by omega)
  simpa using h

/-- Little-endian value of a bit list (head is the least significant
bit); used on the reversed words that `rippleAdd` processes. -/
def valLE (p : ℕ) : List (ZMod p) → Nat
  | [] => 0
  | x :: xs => x.val + 2 * valLE p xs

/-- Big-endian value of a word, the integer it encodes. -/
def wordVal (p : ℕ) (w : List (ZMod p)) : Nat := valLE p w.reverse

theorem valLE_lt {p : ℕ} (hp : 3 < p) :
    ∀ (l : List (ZMod p)), allBits p l → valLE p l < 2 ^ l.length := by
  intro l
  induction l with
  | nil => intro _; simp [valLE]
  | cons x xs ih =>
      intro h
      have hx : isBit p x := h x (List.mem_cons_self x xs)
      have hxs := ih (fun y hy => h y (List.mem_cons_of_mem x hy))
      have hxv : x.val ≤ 1 := by
        rcases hx with h0 | h0 <;>
          simp [h0, val_zero' hp, val_one' hp]
      simp only [valLE, List.length_cons, pow_succ]
      omega

/-- The single ripple step of `wrapping_add`, on bit inputs: both
outputs are bits and `bit + 2 * carry` equals the exact sum. -/
theorem rippleStep_spec {p : ℕ} (hp : 3 < p) {x y c : ZMod p}
    (hx : isBit p x) (hy : isBit p y) (hc : isBit p c) :
    (isBit p (if (2 : ZMod p).val ≤ (x + y + c).val then x + y + c - 2
        else x + y + c) ∧
      isBit p (if (2 : ZMod p).val ≤ (x + y + c).val then (1 : ZMod p) else 0)) ∧
    (if (2 : ZMod p).val ≤ (x + y + c).val then x + y + c - 2 else x + y + c).val
        + 2 * (if (2 : ZMod p).val ≤ (x + y + c).val then (1 : ZMod p) else 0).val
      = x.val + y.val + c.val := by
  have h0 := val_zero' hp
  have h1 := val_one' hp
  have h2 := val_two' hp
  have h3 := val_three' hp
  rcases hx with rfl | rfl <;> rcases hy with rfl | rfl <;> rcases hc with rfl | rfl
  · rw [show (0 + 0 + 0 : ZMod p) = 0 from by ring]
    have hcond : ¬ (2 : ZMod p).val ≤ (0 : ZMod p).val := by omega
    simp only [if_neg hcond]
    exact ⟨⟨Or.inl rfl, Or.inl rfl⟩, by omega⟩
  · rw [show (0 + 0 + 1 : ZMod p) = 1 from by ring]
    have hcond : ¬ (2 : ZMod p).val ≤ (1 : ZMod p).val := by omega
    simp only [if_neg hcond]
    exact ⟨⟨Or.inr rfl, Or.inl rfl⟩, by omega⟩
  · rw [show (0 + 1 + 0 : ZMod p) = 1 from by ring]
    have hcond : ¬ (2 : ZMod p).val ≤ (1 : ZMod p).val := by omega
    simp only [if_neg hcond]
    exact ⟨⟨Or.inr rfl, Or.inl rfl⟩, by omega⟩
  · rw [show (0 + 1 + 1 : ZMod p) = 2 from by ring]
    have hcond : (2 : ZMod p).val ≤ (2 : ZMod p).val := le_rfl
    simp only [if_pos hcond]
    rw [show (2 - 2 : ZMod p) = 0 from by ring]
    exact ⟨⟨Or.inl rfl, Or.inr rfl⟩, by omega⟩
  · rw [show (1 + 0 + 0 : ZMod p) = 1 from by ring]
    have hcond : ¬ (2 : ZMod p).val ≤ (1 : ZMod p).val := by omega
    simp only [if_neg hcond]
    exact ⟨⟨Or.inr rfl, Or.inl rfl⟩, by omega⟩
  · rw [show (1 + 0 + 1 : ZMod p) = 2 from by ring]
    have hcond : (2 : ZMod p).val ≤ (2 : ZMod p).val := le_rfl
    simp only [if_pos hcond]
    rw [show (2 - 2 : ZMod p) = 0 from by ring]
    exact ⟨⟨Or.inl rfl, Or.inr rfl⟩, by omega⟩
  · rw [show (1 + 1 + 0 : ZMod p) = 2 from by ring]
    have hcond : (2 : ZMod p).val ≤ (2 : ZMod p).val := le_rfl
    simp only [if_pos hcond]
    rw [show (2 - 2 : ZMod p) = 0 from by ring]
    exact ⟨⟨Or.inl rfl, Or.inr rfl⟩, by omega⟩
  · rw [show (1 + 1 + 1 : ZMod p) = 3 from by ring]
    have hcond : (2 : ZMod p).val ≤ (3 : ZMod p).val := by omega
    simp only [if_pos hcond]
    rw [show (3 - 2 : ZMod p) = 1 from by ring]
    exact ⟨⟨Or.inr rfl, Or.inr rfl⟩, by omega⟩

/-- Full specification of the ripple-carry loop on bit lists of equal
length: the output bits are bits, the carry out is a bit, the length is
preserved, and `value(out) + 2^n * carryOut = value(a) + value(b) +
carryIn` (little-endian values). -/
theorem rippleAdd_spec {p : ℕ} (hp : 3 < p) :
    ∀ (ra rb : List (ZMod p)) (c : ZMod p), ra.length = rb.length →
      allBits p ra → allBits p rb → isBit p c →
      allBits p (rippleAdd p ra rb c).1 ∧ isBit p (rippleAdd p ra rb c).2 ∧
      (rippleAdd p ra rb c).1.length = ra.length ∧
      valLE p (rippleAdd p ra rb c).1
          + 2 ^ ra.length * ((rippleAdd p ra rb c).2).val
        = valLE p ra + valLE p rb + c.val := by
  intro ra
  induction ra with
  | nil =>
      intro rb c hlen _ _ hc
      have : rb = [] := List.eq_nil_of_length_eq_zero hlen.symm
      subst this
      simpa [rippleAdd, valLE] using ⟨fun x hx => absurd hx (by simp), hc⟩
  | cons x xs ih =>
      intro rb c hlen ha hb hc
      obtain ⟨y, ys, rfl⟩ : ∃ y ys, rb = y :: ys := by
        cases rb with
        | nil => simp at hlen
        | cons y ys => exact ⟨y, ys, rfl⟩
      have hx : isBit p x := ha x (List.mem_cons_self x xs)
      have hxs : allBits p xs := fun z hz => ha z (List.mem_cons_of_mem x hz)
      have hy : isBit p y := hb y (List.mem_cons_self y ys)
      have hys : allBits p ys := fun z hz => hb z (List.mem_cons_of_mem y hz)
      have hlen' : xs.length = ys.length := by simpa using hlen
      have hstep := rippleStep_spec hp hx hy hc
      simp only [rippleAdd]
      by_cases hcond : (2 : ZMod p).val ≤ (x + y + c).val
      · simp only [if_pos hcond] at hstep ⊢
        obtain ⟨⟨hbit, hcar⟩, hval⟩ := hstep
        obtain ⟨ih1, ih2, ih3, ih4⟩ := ih ys 1 hlen' hxs hys hcar
        rw [val_one' hp] at hval
        refine ⟨?_, ih2, ?_, ?_⟩
        · intro z hz
          rcases List.mem_cons.mp hz with rfl | hz'
          · exact hbit
          · exact ih1 z hz'
        · simp [ih3]
        · simp only [valLE, List.length_cons, pow_succ]
          rw [val_one' hp] at ih4
          rw [show (2 : ℕ) ^ xs.length * 2 * ((rippleAdd p xs ys 1).2).val
              = 2 * (2 ^ xs.length * ((rippleAdd p xs ys 1).2).val) from by ring]
          omega
      · simp only [if_neg hcond] at hstep ⊢
        obtain ⟨⟨hbit, hcar⟩, hval⟩ := hstep
        obtain ⟨ih1, ih2, ih3, ih4⟩ := ih ys 0 hlen' hxs hys hcar
        rw [val_zero' hp] at hval
        refine ⟨?_, ih2, ?_, ?_⟩
        · intro z hz
          rcases List.mem_cons.mp hz with rfl | hz'
          · exact hbit
          · exact ih1 z hz'
        · simp [ih3]
        · simp only [valLE, List.length_cons, pow_succ]
          rw [val_zero' hp] at ih4
          rw [show (2 : ℕ) ^ xs.length * 2 * ((rippleAdd p xs ys 0).2).val
              = 2 * (2 ^ xs.length * ((rippleAdd p xs ys 0).2).val) from by ring]
          omega

theorem allBits_reverse {p : ℕ} {l : List (ZMod p)} (h : allBits p l) :
    allBits p l.reverse := fun x hx => h x (List.mem_reverse.mp hx)

/-- Claim C4: on 32-element bit words, `wrapping_add` encodes
`(x + y) mod 2^32` where `x`, `y` are the big-endian integers the
arguments encode; in particular the carry out of the most significant
bit is discarded. -/
theorem wrapping_add_correct {p : ℕ} (hp : 3 < p) (a b : List (ZMod p))
    (ha32 : a.length = 32) (hb32 : b.length = 32)
    (ha : allBits p a) (hb : allBits p b) :
    wordVal p (wrapping_add p a b) = (wordVal p a + wordVal p b) % 2 ^ 32 := by
  have hlen : a.reverse.length = b.reverse.length := by simp [ha32, hb32]
  have hc : isBit p (0 : ZMod p) := Or.inl rfl
  obtain ⟨h1, h2, h3, h4⟩ :=
    rippleAdd_spec hp a.reverse b.reverse 0 hlen (allBits_reverse ha)
      (allBits_reverse hb) hc
  rw [val_zero' hp] at h4
  have hlt : valLE p (rippleAdd p a.reverse b.reverse 0).1
      < 2 ^ 32 := by
    have := valLE_lt hp _ h1
    rw [h3] at this
    simpa [ha32] using this
  have hA : valLE p a.reverse < 2 ^ 32 := by
    have := valLE_lt hp _ (allBits_reverse ha)
    simpa [ha32] using this
  have hB : valLE p b.reverse < 2 ^ 32 := by
    have := valLE_lt hp _ (allBits_reverse hb)
    simpa [hb32] using this
  have hcar : ((rippleAdd p a.reverse b.reverse 0).2).val ≤ 1 := by
    rcases h2 with h0 | h0 <;>
      simp [h0, val_zero' hp, val_one' hp]
  rw [show a.reverse.length = 32 from by simp [ha32]] at h4
  unfold wordVal wrapping_add
  rw [List.reverse_reverse]
  norm_num at h4 hlt hA hB ⊢
  omega

theorem wrapping_add_correct_witness :
    (3 : ℕ) < 5 ∧
    ((List.replicate 31 (0 : ZMod 5)) ++ [1]).length = 32 ∧
    (List.replicate 32 (1 : ZMod 5)).length = 32 ∧
    allBits 5 ((List.replicate 31 (0 : ZMod 5)) ++ [1]) ∧
    allBits 5 (List.replicate 32 (1 : ZMod 5)) ∧
    wordVal 5 (wrapping_add 5 ((List.replicate 31 (0 : ZMod 5)) ++ [1])
        (List.replicate 32 (1 : ZMod 5)))
      = (wordVal 5 ((List.replicate 31 (0 : ZMod 5)) ++ [1])
          + wordVal 5 (List.replicate 32 (1 : ZMod 5))) % 2 ^ 32 :=
  ⟨by decide, by decide, by decide, by decide, by decide,
    wrapping_add_correct (p := 5) (by decide) _ _ (by decide) (by decide)
      (by decide) (by decide)⟩

/-! ## Bit-preservation of the algebra (claim C5) -/

theorem isBit_mul {p : ℕ} {x y : ZMod p} (hx : isBit p x) (hy : isBit p y) :
    isBit p (x * y) := by
  rcases hx with rfl | rfl <;> rcases hy with rfl | rfl <;> simp [isBit]

theorem isBit_not_elem {p : ℕ} {x : ZMod p} (hx : isBit p x) :
    isBit p (1 - x) := by
  rcases hx with rfl | rfl <;> simp [isBit]

theorem isBit_xor_elem {p : ℕ} {x y : ZMod p} (hx : isBit p x) (hy : isBit p y) :
    isBit p (x + y - 2 * (x * y)) := by
  rcases hx with rfl | rfl <;> rcases hy with rfl | rfl
  · exact Or.inl (by ring)
  · exact Or.inr (by ring)
  · exact Or.inr (by ring)
  · exact Or.inl (by ring)

theorem allBits_zipWith {p : ℕ} (f : ZMod p → ZMod p → ZMod p)
    (hf : ∀ x y, isBit p x → isBit p y → isBit p (f x y)) :
    ∀ (a b : List (ZMod p)), allBits p a → allBits p b →
      allBits p (List.zipWith f a b) := by
  intro a
  induction a with
  | nil =>
      intro b _ _ z hz
      simp at hz
  | cons x xs ih =>
      intro b ha hb
      cases b with
      | nil =>
          intro z hz
          simp at hz
      | cons y ys =>
          intro z hz
          rw [List.zipWith_cons_cons] at hz
          rcases List.mem_cons.mp hz with rfl | hz'
          · exact hf x y (ha x (by simp)) (hb y (by simp))
          · exact ih ys (fun w hw => ha w (List.mem_cons_of_mem _ hw))
              (fun w hw => hb w (List.mem_cons_of_mem _ hw)) z hz'

theorem isBit_getD {p : ℕ} {l : List (ZMod p)} (h : allBits p l) (i : Nat) :
    isBit p (l.getD i 0) := by
  by_cases hi : i < l.length
  · rw [List.getD_eq_getElem l 0 hi]
    exact h _ (List.getElem_mem hi)
  · rw [List.getD_eq_default l 0 (by omega)]
    exact Or.inl rfl

theorem allBits_foldl_set {p : ℕ} (f : Nat → Nat) (g : Nat → ZMod p)
    (hg : ∀ i, isBit p (g i)) :
    ∀ (idxs : List Nat) (acc : List (ZMod p)), allBits p acc →
      allBits p (idxs.foldl (fun l i => l.set (f i) (g i)) acc) := by
  intro idxs
  induction idxs with
  | nil =>
      intro acc h
      exact h
  | cons i is ih =>
      intro acc h
      rw [List.foldl_cons]
      refine ih _ (fun z hz => ?_)
      rcases List.mem_or_eq_of_mem_set hz with hz' | rfl
      · exact h z hz'
      · exact hg i

theorem allBits_replicate (p : ℕ) (n : Nat) :
    allBits p (List.replicate n (0 : ZMod p)) := by
  intro z hz
  rw [List.eq_of_mem_replicate hz]
  exact Or.inl rfl

theorem allBits_rotate_right {p : ℕ} (rot : Nat) {a : List (ZMod p)}
    (ha : allBits p a) : allBits p (rotate_right p rot a) :=
  allBits_foldl_set (fun i => (i + rot) % a.length) (fun i => a.getD i 0)
    (fun i => isBit_getD ha i) (List.range a.length) _
    (allBits_replicate p a.length)

theorem allBits_right_shift {p : ℕ} (shift : Nat) {a : List (ZMod p)}
    (ha : allBits p a) : allBits p (right_shift p shift a) := by
  unfold right_shift
  split
  · intro z hz
    rcases List.mem_append.mp hz with hz' | hz'
    · rw [List.eq_of_mem_replicate hz']
      exact Or.inl rfl
    · exact ha z (List.take_subset _ _ hz')
  · exact allBits_replicate p a.length

theorem rippleAdd_allBits {p : ℕ} (hp : 3 < p) :
    ∀ (ra rb : List (ZMod p)) (c : ZMod p), allBits p ra → allBits p rb →
      isBit p c →
      allBits p (rippleAdd p ra rb c).1 ∧ isBit p (rippleAdd p ra rb c).2 := by
  intro ra
  induction ra with
  | nil =>
      intro rb c _ _ hc
      refine ⟨fun z hz => ?_, by simpa [rippleAdd] using hc⟩
      simp [rippleAdd] at hz
  | cons x xs ih =>
      intro rb c ha hb hc
      cases rb with
      | nil =>
          refine ⟨fun z hz => ?_, by simpa [rippleAdd] using hc⟩
          simp [rippleAdd] at hz
      | cons y ys =>
          have hx : isBit p x := ha x (List.mem_cons_self x xs)
          have hxs : allBits p xs := fun z hz => ha z (List.mem_cons_of_mem x hz)
          have hy : isBit p y := hb y (List.mem_cons_self y ys)
          have hys : allBits p ys := fun z hz => hb z (List.mem_cons_of_mem y hz)
          have hstep := rippleStep_spec hp hx hy hc
          simp only [rippleAdd]
          by_cases hcond : (2 : ZMod p).val ≤ (x + y + c).val
          · simp only [if_pos hcond] at hstep ⊢
            obtain ⟨⟨hbit, hcar⟩, _⟩ := hstep
            obtain ⟨ih1, ih2⟩ := ih ys 1 hxs hys hcar
            refine ⟨fun z hz => ?_, ih2⟩
            rcases List.mem_cons.mp hz with rfl | hz'
            · exact hbit
            · exact ih1 z hz'
          · simp only [if_neg hcond] at hstep ⊢
            obtain ⟨⟨hbit, hcar⟩, _⟩ := hstep
            obtain ⟨ih1, ih2⟩ := ih ys 0 hxs hys hcar
            refine ⟨fun z hz => ?_, ih2⟩
            rcases List.mem_cons.mp hz with rfl | hz'
            · exact hbit
            · exact ih1 z hz'

/-- Claim C5: on inputs whose elements all encode bits, each of the six
algebra functions `and`, `not`, `xor`, `rotate_right`, `right_shift`
and `wrapping_add` returns a list whose elements again all encode
bits. -/
theorem algebra_preserves_bits {p : ℕ} (hp : 3 < p) (a b : List (ZMod p))
    (rot shift : Nat) (ha : allBits p a) (hb : allBits p b) :
    allBits p (and p a b) ∧ allBits p (not p a) ∧ allBits p (xor p a b) ∧
    allBits p (rotate_right p rot a) ∧ allBits p (right_shift p shift a) ∧
    allBits p (wrapping_add p a b) := by
  refine ⟨?_, ?_, ?_, allBits_rotate_right rot ha, allBits_right_shift shift ha, ?_⟩
  · exact allBits_zipWith _ (fun x y hx hy => isBit_mul hx hy) a b ha hb
  · intro z hz
    unfold not at hz
    obtain ⟨w, hw, rfl⟩ := List.mem_map.mp hz
    exact isBit_not_elem (ha w hw)
  · exact allBits_zipWith _ (fun x y hx hy => isBit_xor_elem hx hy) a b ha hb
  · refine allBits_reverse ?_
    exact (rippleAdd_allBits hp a.reverse b.reverse 0 (allBits_reverse ha)
      (allBits_reverse hb) (Or.inl rfl)).1

theorem algebra_preserves_bits_witness :
    (3 : ℕ) < 5 ∧ allBits 5 [0, 1, 1, 0] ∧ allBits 5 [1, 1, 0, 0] ∧
    (allBits 5 (and 5 [0, 1, 1, 0] [1, 1, 0, 0]) ∧
     allBits 5 (not 5 [0, 1, 1, 0]) ∧
     allBits 5 (xor 5 [0, 1, 1, 0] [1, 1, 0, 0]) ∧
     allBits 5 (rotate_right 5 3 [0, 1, 1, 0]) ∧
     allBits 5 (right_shift 5 2 [0, 1, 1, 0]) ∧
     allBits 5 (wrapping_add 5 [0, 1, 1, 0] [1, 1, 0, 0])) :=
  ⟨by decide, by decide, by decide,
    algebra_preserves_bits (p := 5) (by decide) [0, 1, 1, 0] [1, 1, 0, 0] 3 2
      (by decide) (by decide)⟩

/-! ## Characterisation of `rotate_right` (claim C9) -/

theorem foldl_set_length {α : Type} (f : Nat → Nat) (g : Nat → α) :
    ∀ (idxs : List Nat) (acc : List α),
      (idxs.foldl (fun l i => l.set (f i) (g i)) acc).length = acc.length := by
  intro idxs
  induction idxs with
  | nil =>
      intro acc
      rfl
  | cons i is ih =>
      intro acc
      rw [List.foldl_cons, ih, List.length_set]

theorem foldl_set_getD_untouched {α : Type} (f : Nat → Nat) (g : Nat → α) (d : α) :
    ∀ (idxs : List Nat) (acc : List α) (j : Nat),
      (∀ i ∈ idxs, f i ≠ j) →
      (idxs.foldl (fun l i => l.set (f i) (g i)) acc).getD j d = acc.getD j d := by
  intro idxs
  induction idxs with
  | nil =>
      intro acc j _
      rfl
  | cons i is ih =>
      intro acc j hne
      rw [List.foldl_cons, ih _ j (fun i' hi' => hne i' (List.mem_cons_of_mem _ hi')),
        List.getD_eq_getElem?_getD, List.getD_eq_getElem?_getD,
        List.getElem?_set_ne (hne i (List.mem_cons_self i is))]

theorem foldl_set_getD_write {α : Type} (f : Nat → Nat) (g : Nat → α) (d : α) :
    ∀ (idxs : List Nat) (acc : List α) (i0 j : Nat), idxs.Nodup →
      i0 ∈ idxs → f i0 = j → j < acc.length →
      (∀ i ∈ idxs, f i = j → i = i0) →
      (idxs.foldl (fun l i => l.set (f i) (g i)) acc).getD j d = g i0 := by
  intro idxs
  induction idxs with
  | nil =>
      intro acc i0 j _ h
      simp at h
  | cons i is ih =>
      intro acc i0 j hnd hmem hfi0 hj huniq
      rw [List.foldl_cons]
      rcases List.mem_cons.mp hmem with rfl | hmem'
      · have hnotin : ∀ i' ∈ is, f i' ≠ j := by
          intro i' hi' hfi'
          have heq : i' = i0 := huniq i' (List.mem_cons_of_mem _ hi') hfi'
          subst heq
          exact (List.nodup_cons.mp hnd).1 hi'
        rw [foldl_set_getD_untouched f g d is _ j hnotin, hfi0,
          List.getD_eq_getElem?_getD, List.getElem?_set_eq hj, Option.getD_some]
      · have hne : f i ≠ j := by
          intro hfi
          have heq : i = i0 := huniq i (List.mem_cons_self i is) hfi
          subst heq
          exact (List.nodup_cons.mp hnd).1 hmem'
        refine ih _ i0 j (List.nodup_cons.mp hnd).2 hmem' hfi0 ?_
          (fun i' hi' hfi' => huniq i' (List.mem_cons_of_mem _ hi') hfi')
        rw [List.length_set]
        exact hj

theorem rotate_right_length {p : ℕ} (rot : Nat) (word : List (ZMod p)) :
    (rotate_right p rot word).length = word.length := by
  unfold rotate_right
  rw [foldl_set_length, List.length_replicate]

/-- The gather form of the scatter loop in `rotate_right`: position `j`
of the result holds the source bit at `(j + (N - rot % N)) % N`. -/
theorem rotate_right_getD {p : ℕ} (rot : Nat) (word : List (ZMod p)) (j : Nat)
    (hj : j < word.length) :
    (rotate_right p rot word).getD j 0
      = word.getD ((j + (word.length - rot % word.length)) % word.length) 0 := by
  have hN : 0 < word.length := by omega
  have hrm : rot % word.length < word.length := Nat.mod_lt _ hN
  have hdm : word.length * (rot / word.length) + rot % word.length = rot :=
    Nat.div_add_mod rot word.length
  have hval : j + (word.length - rot % word.length) + rot
      = j + (1 + rot / word.length) * word.length := by
    rw [add_mul, one_mul, mul_comm]
    omega
  have hwrite : ((j + (word.length - rot % word.length)) % word.length + rot)
      % word.length = j := by
    rw [Nat.mod_add_mod, hval, Nat.add_mul_mod_self_right, Nat.mod_eq_of_lt hj]
  unfold rotate_right
  refine foldl_set_getD_write _ _ 0 (List.range word.length) _
    ((j + (word.length - rot % word.length)) % word.length) j
    (List.nodup_range word.length) (List.mem_range.mpr (Nat.mod_lt _ hN))
    hwrite (by rw [List.length_replicate]; exact hj) ?_
  intro i hi hfi
  have hi' : i < word.length := List.mem_range.mp hi
  have hmod : i ≡ (j + (word.length - rot % word.length)) % word.length
      [MOD word.length] := by
    refine Nat.ModEq.add_right_cancel' rot ?_
    unfold Nat.ModEq
    rw [hfi, Nat.mod_add_mod, hval, Nat.add_mul_mod_self_right, Nat.mod_eq_of_lt hj]
  unfold Nat.ModEq at hmod
  rw [Nat.mod_eq_of_lt hi', Nat.mod_eq_of_lt (Nat.mod_lt _ hN)] at hmod
  exact hmod

/-- Claim C9: `rotate_right` places the bit at source index `i` at
destination index `(i + r) % 32`, the position map is a bijection on
word positions, and the rotation has period 32. -/
theorem rotate_right_rotates {p : ℕ} (r : Nat) (w : List (ZMod p))
    (hw : w.length = 32) :
    (∀ i, i < 32 → (rotate_right p r w).getD ((i + r) % 32) 0 = w.getD i 0) ∧
    Function.Bijective
      (fun i : Fin 32 => (⟨((i : Nat) + r) % 32, Nat.mod_lt _ (by omega)⟩ : Fin 32)) ∧
    rotate_right p 32 w = w ∧
    rotate_right p (r + 32) w = rotate_right p r w := by
  refine ⟨?_, ?_, ?_, ?_⟩
  · intro i hi
    have hg := rotate_right_getD (p := p) r w ((i + r) % 32)
      (by rw [hw]; exact Nat.mod_lt _ (by omega))
    rw [hw] at hg
    rw [hg, show ((i + r) % 32 + (32 - r % 32)) % 32 = i from by omega]
  · have hinj : Function.Injective
        (fun i : Fin 32 => (⟨((i : Nat) + r) % 32, Nat.mod_lt _ (by omega)⟩ : Fin 32)) := by
      intro a b hab
      have hval : ((a : Nat) + r) % 32 = ((b : Nat) + r) % 32 := by
        simpa using congrArg Fin.val hab
      have ha := a.isLt
      have hb := b.isLt
      exact Fin.ext (by omega)
    exact ⟨hinj, Finite.surjective_of_injective hinj⟩
  · refine List.ext_getElem (by rw [rotate_right_length]) (fun n h1 h2 => ?_)
    have hg := rotate_right_getD (p := p) 32 w n h2
    rw [hw] at hg
    rw [show (n + (32 - 32 % 32)) % 32 = n from by
      have : n < 32 := by omega
      omega] at hg
    rw [← List.getD_eq_getElem _ 0 h1, ← List.getD_eq_getElem _ 0 h2]
    exact hg
  · refine List.ext_getElem (by rw [rotate_right_length, rotate_right_length])
      (fun n h1 h2 => ?_)
    have hn : n < w.length := by
      rw [rotate_right_length] at h1
      exact h1
    have hg1 := rotate_right_getD (p := p) (r + 32) w n hn
    have hg2 := rotate_right_getD (p := p) r w n hn
    rw [hw] at hg1 hg2
    rw [show (n + (32 - (r + 32) % 32)) % 32 = (n + (32 - r % 32)) % 32 from by
      omega] at hg1
    rw [← List.getD_eq_getElem _ 0 h1, ← List.getD_eq_getElem _ 0 h2, hg1, hg2]

theorem rotate_right_rotates_witness :
    ((List.replicate 31 (0 : ZMod 5)) ++ [1]).length = 32 ∧
    ((∀ i, i < 32 →
        (rotate_right 5 7 ((List.replicate 31 (0 : ZMod 5)) ++ [1])).getD
            ((i + 7) % 32) 0
          = ((List.replicate 31 (0 : ZMod 5)) ++ [1]).getD i 0) ∧
      Function.Bijective
        (fun i : Fin 32 => (⟨((i : Nat) + 7) % 32, Nat.mod_lt _ (by omega)⟩ : Fin 32)) ∧
      rotate_right 5 32 ((List.replicate 31 (0 : ZMod 5)) ++ [1])
          = (List.replicate 31 (0 : ZMod 5)) ++ [1] ∧
      rotate_right 5 (7 + 32) ((List.replicate 31 (0 : ZMod 5)) ++ [1])
          = rotate_right 5 7 ((List.replicate 31 (0 : ZMod 5)) ++ [1])) :=
  ⟨by decide, rotate_right_rotates (p := 5) 7 _ (by decide)⟩

/-! ## `bits_to_u32` treats every non-zero element as 1 (claim C10) -/

theorem foldl_or_testBit {α : Type} (f : α → ℕ) :
    ∀ (l : List α) (a : ℕ) (k : ℕ),
      ((l.foldl (fun acc x => acc ||| f x) a).testBit k)
        = (a.testBit k || l.any (fun x => (f x).testBit k)) := by
  intro l
  induction l with
  | nil =>
      intro a k
      simp
  | cons x xs ih =>
      intro a k
      rw [List.foldl_cons, ih, List.any_cons, Nat.testBit_lor, Bool.or_assoc]

/-- Replacing every non-zero element by 1 does not change `bits_to_u32`:
the fold only asks whether each element equals `F::zero()`. -/
theorem bits_to_u32_map_norm {p : ℕ} (hp : 1 < p) (bits : List (ZMod p)) :
    bits_to_u32 p (bits.map (fun x => if x = 0 then (0 : ZMod p) else 1))
      = bits_to_u32 p bits := by
  haveI := Fact.mk hp
  unfold bits_to_u32
  rw [List.enum_map, List.foldl_map]
  refine List.foldl_ext _ _ 0 (fun a ib _ => ?_)
  obtain ⟨i, x⟩ := ib
  by_cases h : x = 0 <;> simp [h, Prod.map, one_ne_zero]

/-- Bit `k` of `bits_to_u32` is set exactly when the element at
big-endian position `31 - k` differs from the field's zero. -/
theorem bits_to_u32_testBit {p : ℕ} (bits : List (ZMod p))
    (hlen : bits.length = 32) (k : Nat) (hk : k < 32) :
    (bits_to_u32 p bits).testBit k
      = decide (¬ bits.getD (31 - k) 0 = 0) := by
  unfold bits_to_u32
  rw [foldl_or_testBit
    (fun ib : ℕ × ZMod p => (if ib.2 = (0 : ZMod p) then 0 else 1) <<< (31 - ib.1))
    bits.enum 0 k, Nat.zero_testBit, Bool.false_or, Bool.eq_iff_iff,
    List.any_eq_true, decide_eq_true_eq]
  constructor
  · rintro ⟨⟨i, x⟩, hmem, hP⟩
    rw [List.mem_enum_iff_getElem?] at hmem
    have hi : i < bits.length := by
      by_contra hcon
      rw [List.getElem?_eq_none (by omega)] at hmem
      cases hmem
    by_cases hx : x = 0
    · rw [if_pos hx] at hP
      simp [Nat.zero_shiftLeft] at hP
    · rw [if_neg hx] at hP
      rw [Nat.testBit_shiftLeft, Bool.and_eq_true, decide_eq_true_eq,
        Nat.testBit_one_eq_true_iff_self_eq_zero] at hP
      have hik : k = 31 - i := by omega
      have hi31 : 31 - k = i := by omega
      rw [hi31, List.getD_eq_getElem bits 0 hi]
      have : bits[i] = x := by
        rw [List.getElem?_eq_getElem hi] at hmem
        exact Option.some.inj hmem
      rw [this]
      exact hx
  · intro hne
    have hi : 31 - k < bits.length := by omega
    refine ⟨(31 - k, bits[31 - k]), ?_, ?_⟩
    · rw [List.mem_enum_iff_getElem?]
      exact List.getElem?_eq_getElem hi
    · have hx : ¬ bits[31 - k] = (0 : ZMod p) := by
        rw [List.getD_eq_getElem bits 0 hi] at hne
        exact hne
      rw [if_neg hx]
      rw [Nat.testBit_shiftLeft]
      have h31 : 31 - (31 - k) = k := by omega
      rw [h31]
      simp [Nat.testBit_one_eq_true_iff_self_eq_zero]

/-- Claim C10: `bits_to_u32` (and hence `digest_to_hex`) interprets
every element that is not exactly the field's zero — bit-valued or not —
as the bit 1 at its big-endian position, never failing: bit `k` of the
result is set exactly when element `31 - k` is non-zero, and replacing
every non-zero element by 1 leaves both functions unchanged. -/
theorem bits_to_u32_nonzero_as_one {p : ℕ} (hp : 1 < p)
    (bits : List (ZMod p)) (H : List (List (ZMod p)))
    (hlen : bits.length = 32) (k : Nat) (hk : k < 32) :
    ((bits_to_u32 p bits).testBit k
        = decide (¬ bits.getD (31 - k) 0 = 0)) ∧
    bits_to_u32 p (bits.map (fun x => if x = 0 then (0 : ZMod p) else 1))
        = bits_to_u32 p bits ∧
    digest_to_hex p
        (H.map (fun w => w.map (fun x => if x = 0 then (0 : ZMod p) else 1)))
      = digest_to_hex p H := by
  refine ⟨bits_to_u32_testBit bits hlen k hk, bits_to_u32_map_norm hp bits, ?_⟩
  unfold digest_to_hex
  rw [List.map_map]
  refine congrArg String.join (List.map_congr_left (fun w _ => ?_))
  simp only [Function.comp]
  rw [bits_to_u32_map_norm hp w]

theorem bits_to_u32_nonzero_as_one_witness :
    (1 : ℕ) < 5 ∧ ([(2 : ZMod 5)] ++ List.replicate 31 (3 : ZMod 5)).length = 32 ∧
      (0 : ℕ) < 32 ∧
    (((bits_to_u32 5 ([(2 : ZMod 5)] ++ List.replicate 31 (3 : ZMod 5))).testBit 0
        = decide (¬ ([(2 : ZMod 5)] ++ List.replicate 31 (3 : ZMod 5)).getD (31 - 0) 0 = 0)) ∧
    bits_to_u32 5 (([(2 : ZMod 5)] ++ List.replicate 31 (3 : ZMod 5)).map
        (fun x => if x = 0 then (0 : ZMod 5) else 1))
        = bits_to_u32 5 ([(2 : ZMod 5)] ++ List.replicate 31 (3 : ZMod 5)) ∧
    digest_to_hex 5
        ([[(2 : ZMod 5)]].map (fun w => w.map (fun x => if x = 0 then (0 : ZMod 5) else 1)))
      = digest_to_hex 5 [[(2 : ZMod 5)]]) :=
  ⟨by decide, by decide, by decide,
    bits_to_u32_nonzero_as_one (p := 5) (by decide) _ [[(2 : ZMod 5)]]
      (by decide) 0 (by decide)⟩

/-! ## Mode equivalence (claim C3) -/

/-- The two duplicated compression routines are the same function. -/
theorem process_chunk_eq (p : ℕ) :
    DynamicSha256.process_chunk p = NativeSha256.process_chunk p := rfl

/-- Claim C3: on any 512-bit-aligned padded preimage, the resumable
hasher with default initial state computes the same digest as the
one-shot hasher, for every `digest_index` argument — the index is
stored but never read by hashing. -/
theorem dynamic_hash_eq_native (p : ℕ) (padded : List Nat) (digest_index : Nat)
    (h : padded.length % 512 = 0) :
    DynamicSha256.hash p padded digest_index none = NativeSha256.hash p padded := by
  unfold DynamicSha256.hash NativeSha256.hash
  rw [if_pos h, if_pos h, process_chunk_eq]
  rfl

theorem dynamic_hash_eq_native_witness :
    (List.replicate 512 (0 : Nat)).length % 512 = 0 ∧
    DynamicSha256.hash 5 (List.replicate 512 (0 : Nat)) 17 none
      = NativeSha256.hash 5 (List.replicate 512 (0 : Nat)) :=
  ⟨by decide,
    dynamic_hash_eq_native 5 (List.replicate 512 (0 : Nat)) 17 (by decide)⟩

/-! ## Values of raw bit lists

Infrastructure relating `List Nat` bit sequences to the numbers they
encode, used to connect the bit-sliced hash to the word-level reference
implementation. -/

/-- Big-endian value of a raw bit list. -/
def natValBE (l : List Nat) : Nat :=
  l.foldl (fun a b => 2 * a + b) 0

/-- Little-endian value of a raw bit list. -/
def natValLE : List Nat → Nat
  | [] => 0
  | b :: t => b + 2 * natValLE t

/-- Little-endian counterpart of `to_bits_be`. -/
def toBitsLE (N x : Nat) : List Nat :=
  (List.range N).map (fun i => (x >>> i) &&& 1)

theorem natValBE_aux (l : List Nat) :
    ∀ a : Nat, l.foldl (fun a b => 2 * a + b) a = a * 2 ^ l.length + natValBE l := by
  induction l with
  | nil =>
      intro a
      simp [natValBE]
  | cons b t ih =>
      intro a
      rw [List.foldl_cons, ih (2 * a + b),
        show natValBE (b :: t) = t.foldl (fun a b => 2 * a + b) (2 * 0 + b) from rfl,
        ih (2 * 0 + b), List.length_cons]
      ring

theorem natValBE_cons (b : Nat) (t : List Nat) :
    natValBE (b :: t) = b * 2 ^ t.length + natValBE t := by
  rw [show natValBE (b :: t) = t.foldl (fun a b => 2 * a + b) (2 * 0 + b) from rfl,
    natValBE_aux]
  ring

theorem natValBE_append (l1 l2 : List Nat) :
    natValBE (l1 ++ l2) = natValBE l1 * 2 ^ l2.length + natValBE l2 := by
  rw [natValBE, List.foldl_append, natValBE_aux]
  rfl

theorem natValBE_lt (l : List Nat) (h : ∀ b ∈ l, b ≤ 1) :
    natValBE l < 2 ^ l.length := by
  induction l with
  | nil => simp [natValBE]
  | cons b t ih =>
      have hb : b ≤ 1 := h b (List.mem_cons_self b t)
      have ht := ih (fun x hx => h x (List.mem_cons_of_mem b hx))
      rw [natValBE_cons, List.length_cons, pow_succ]
      nlinarith

theorem natValBE_eq_natValLE_reverse (l : List Nat) :
    natValBE l = natValLE l.reverse := by
  induction l using List.reverseRecOn with
  | nil => rfl
  | append_singleton t b ih =>
      rw [natValBE_append, List.reverse_append, List.reverse_singleton,
        List.singleton_append, natValLE, ← ih]
      rw [show natValBE [b] = b from by simp [natValBE], List.length_singleton]
      ring

theorem to_bits_be_eq_reverse_toBitsLE (N x : Nat) :
    to_bits_be N x = (toBitsLE N x).reverse := by
  refine List.ext_getElem (by simp [to_bits_be, toBitsLE]) (fun i h1 h2 => ?_)
  have hN : i < N := by simpa [to_bits_be] using h1
  rw [List.getElem_reverse]
  unfold to_bits_be toBitsLE
  rw [List.getElem_map, List.getElem_map, List.getElem_range, List.getElem_range]
  congr 2
  simp only [List.length_map, List.length_range]

theorem toBitsLE_succ (N x : Nat) :
    toBitsLE (N + 1) x = (x &&& 1) :: toBitsLE N (x >>> 1) := by
  unfold toBitsLE
  rw [List.range_succ_eq_map, List.map_cons, List.map_map]
  congr 1
  refine List.map_congr_left (fun i _ => ?_)
  simp only [Function.comp_apply, Nat.succ_eq_add_one]
  rw [show i + 1 = 1 + i from by omega, Nat.shiftRight_add]

theorem natValLE_toBitsLE (N : Nat) : ∀ x : Nat, natValLE (toBitsLE N x) = x % 2 ^ N := by
  induction N with
  | zero =>
      intro x
      simp [toBitsLE, natValLE, Nat.mod_one]
  | succ N ih =>
      intro x
      rw [toBitsLE_succ, natValLE, ih (x >>> 1), Nat.and_one_is_mod,
        Nat.shiftRight_succ, Nat.shiftRight_zero, pow_succ, mul_comm (2 ^ N) 2,
        Nat.mod_mul]

theorem toBitsLE_natValLE : ∀ l : List Nat, (∀ b ∈ l, b ≤ 1) →
    toBitsLE l.length (natValLE l) = l := by
  intro l
  induction l with
  | nil =>
      intro _
      rfl
  | cons b t ih =>
      intro h
      have hb : b ≤ 1 := h b (List.mem_cons_self b t)
      rw [List.length_cons, toBitsLE_succ, natValLE]
      congr 1
      · rw [Nat.and_one_is_mod]
        omega
      · rw [show (b + 2 * natValLE t) >>> 1 = natValLE t from by
          rw [Nat.shiftRight_succ, Nat.shiftRight_zero]
          omega]
        exact ih (fun x hx => h x (List.mem_cons_of_mem b hx))

theorem natValBE_to_bits_be (N x : Nat) :
    natValBE (to_bits_be N x) = x % 2 ^ N := by
  rw [to_bits_be_eq_reverse_toBitsLE, natValBE_eq_natValLE_reverse,
    List.reverse_reverse, natValLE_toBitsLE]

theorem to_bits_be_natValBE (l : List Nat) (h : ∀ b ∈ l, b ≤ 1) :
    to_bits_be l.length (natValBE l) = l := by
  rw [natValBE_eq_natValLE_reverse, to_bits_be_eq_reverse_toBitsLE,
    show l.length = l.reverse.length from (List.length_reverse l).symm,
    toBitsLE_natValLE l.reverse (fun b hb => h b (List.mem_reverse.mp hb)),
    List.reverse_reverse]

theorem to_bits_be_le_one (N x : Nat) : ∀ b ∈ to_bits_be N x, b ≤ 1 := by
  intro b hb
  unfold to_bits_be at hb
  obtain ⟨i, _, rfl⟩ := List.mem_map.mp hb
  rw [Nat.and_one_is_mod]
  omega

theorem to_bits_be_getElem (N x i : Nat) (h : i < (to_bits_be N x).length) :
    (to_bits_be N x)[i] = (x >>> (N - 1 - i)) &&& 1 := by
  unfold to_bits_be at h ⊢
  rw [List.getElem_map, List.getElem_range]

theorem byteToBits_eq_to_bits_be (b : Nat) : byteToBits b = to_bits_be 8 b := by
  refine List.ext_getElem (by simp [byteToBits, to_bits_be]) (fun i h1 h2 => ?_)
  have hi : i < 8 := by simpa [byteToBits] using h1
  rw [to_bits_be_getElem 8 b i hi]
  unfold byteToBits
  simp only [List.map_reverse, List.getElem_reverse, List.getElem_map,
    List.getElem_range, List.length_map, List.length_range]

/-! ## Word encoding and algebra correspondence -/

/-- Field encoding of a 32-bit word: its big-endian bits cast into the
field. -/
def encodeWord (p : ℕ) (x : Nat) : List (ZMod p) :=
  (to_bits_be 32 x).map (fun b : ℕ => (b : ZMod p))

theorem encodeWord_length (p x : ℕ) : (encodeWord p x).length = 32 := by
  simp [encodeWord, to_bits_be]

theorem bitAt_eq_testBit (x k : Nat) : (x >>> k) &&& 1 = (x.testBit k).toNat := by
  rw [Nat.toNat_testBit, Nat.and_one_is_mod, Nat.shiftRight_eq_div_pow]

theorem encodeWord_getElem {p : ℕ} (x i : Nat)
    (h : i < (encodeWord p x).length) :
    (encodeWord p x)[i] = (((x.testBit (32 - 1 - i)).toNat : ℕ) : ZMod p) := by
  unfold encodeWord at h ⊢
  rw [List.getElem_map, to_bits_be_getElem 32 x i (by simpa using h),
    bitAt_eq_testBit]

theorem allBits_encodeWord (p x : ℕ) : allBits p (encodeWord p x) := by
  intro z hz
  obtain ⟨b, hb, rfl⟩ := List.mem_map.mp hz
  rcases Nat.le_one_iff_eq_zero_or_eq_one.mp (to_bits_be_le_one 32 x b hb)
    with rfl | rfl
  · exact Or.inl (by simp)
  · exact Or.inr (by simp)

theorem encodeWord_zero (p : ℕ) : encodeWord p 0 = zeroWord p := by
  refine List.ext_getElem
    (by rw [encodeWord_length, zeroWord, List.length_replicate]) (fun i h1 h2 => ?_)
  rw [encodeWord_getElem 0 i h1]
  unfold zeroWord
  rw [List.getElem_replicate, Nat.zero_testBit]
  simp

theorem valLE_map_cast {p : ℕ} (hp : 3 < p) :
    ∀ l : List Nat, (∀ b ∈ l, b ≤ 1) →
      valLE p (l.map (fun b : ℕ => (b : ZMod p))) = natValLE l := by
  intro l
  induction l with
  | nil =>
      intro _
      rfl
  | cons b t ih =>
      intro h
      have hb : b ≤ 1 := h b (List.mem_cons_self b t)
      rw [List.map_cons]
      show ((b : ZMod p)).val + 2 * valLE p (t.map _) = b + 2 * natValLE t
      rw [val_natCast_small (by omega) (by omega),
        ih (fun x hx => h x (List.mem_cons_of_mem b hx))]

theorem wordVal_encodeWord {p : ℕ} (hp : 3 < p) (x : Nat) (hx : x < 2 ^ 32) :
    wordVal p (encodeWord p x) = x := by
  unfold wordVal encodeWord
  rw [← List.map_reverse, valLE_map_cast hp _
      (fun b hb => to_bits_be_le_one 32 x b (List.mem_reverse.mp hb)),
    ← natValBE_eq_natValLE_reverse, natValBE_to_bits_be, Nat.mod_eq_of_lt hx]

theorem map_cast_encodeWord {p : ℕ} (bl : List Nat) (hlen : bl.length = 32)
    (hb : ∀ b ∈ bl, b ≤ 1) :
    bl.map (fun b : ℕ => (b : ZMod p)) = encodeWord p (natValBE bl) := by
  unfold encodeWord
  rw [show (32 : ℕ) = bl.length from hlen.symm, to_bits_be_natValBE bl hb]

theorem valLE_eq_natValLE (p : ℕ) :
    ∀ w : List (ZMod p), valLE p w = natValLE (w.map ZMod.val) := by
  intro w
  induction w with
  | nil => rfl
  | cons x t ih =>
      rw [List.map_cons]
      show x.val + 2 * valLE p t = x.val + 2 * natValLE (t.map ZMod.val)
      rw [ih]

theorem encodeWord_of_allBits {p : ℕ} (hp : 3 < p) (w : List (ZMod p))
    (hlen : w.length = 32) (hw : allBits p w) :
    encodeWord p (wordVal p w) = w := by
  haveI : NeZero p := ⟨by omega⟩
  have hcast : (w.map ZMod.val).map (fun b : ℕ => (b : ZMod p)) = w := by
    rw [List.map_map]
    refine List.ext_getElem (by simp) (fun i h1 h2 => ?_)
    rw [List.getElem_map]
    exact ZMod.natCast_rightInverse w[i]
  have hbits : ∀ b ∈ w.map ZMod.val, b ≤ 1 := by
    intro b hb
    obtain ⟨z, hz, rfl⟩ := List.mem_map.mp hb
    rcases hw z hz with rfl | rfl
    · rw [val_zero' hp]
      omega
    · rw [val_one' hp]
  have hval : wordVal p w = natValBE (w.map ZMod.val) := by
    unfold wordVal
    rw [valLE_eq_natValLE, List.map_reverse, ← natValBE_eq_natValLE_reverse]
  rw [hval, ← map_cast_encodeWord _ (by simp [hlen]) hbits, hcast]

/-- `and` is bitwise AND, through the encoding. -/
theorem and_encodeWord (p x y : ℕ) :
    and p (encodeWord p x) (encodeWord p y) = encodeWord p (x &&& y) := by
  refine List.ext_getElem
    (by simp [and, encodeWord_length]) (fun i h1 h2 => ?_)
  have hi : i < 32 := by rw [encodeWord_length] at h2; exact h2
  unfold and
  rw [List.getElem_zipWith,
    encodeWord_getElem x i (by rw [encodeWord_length]; exact hi),
    encodeWord_getElem y i (by rw [encodeWord_length]; exact hi),
    encodeWord_getElem (x &&& y) i h2, Nat.testBit_land]
  cases x.testBit (32 - 1 - i) <;> cases y.testBit (32 - 1 - i) <;> simp

/-- `xor` is bitwise XOR, through the encoding. -/
theorem xor_encodeWord (p x y : ℕ) :
    xor p (encodeWord p x) (encodeWord p y) = encodeWord p (x ^^^ y) := by
  refine List.ext_getElem
    (by simp [xor, encodeWord_length]) (fun i h1 h2 => ?_)
  have hi : i < 32 := by rw [encodeWord_length] at h2; exact h2
  unfold xor
  rw [List.getElem_zipWith,
    encodeWord_getElem x i (by rw [encodeWord_length]; exact hi),
    encodeWord_getElem y i (by rw [encodeWord_length]; exact hi),
    encodeWord_getElem (x ^^^ y) i h2, Nat.testBit_xor]
  cases x.testBit (32 - 1 - i) <;> cases y.testBit (32 - 1 - i) <;>
    simp <;> ring

/-- `not` is bitwise complement within 32 bits, through the encoding. -/
theorem not_encodeWord (p x : ℕ) :
    not p (encodeWord p x) = encodeWord p (x ^^^ (2 ^ 32 - 1)) := by
  refine List.ext_getElem
    (by simp [not, encodeWord_length]) (fun i h1 h2 => ?_)
  have hi : i < 32 := by rw [encodeWord_length] at h2; exact h2
  unfold not
  rw [List.getElem_map,
    encodeWord_getElem x i (by rw [encodeWord_length]; exact hi),
    encodeWord_getElem (x ^^^ (2 ^ 32 - 1)) i h2, Nat.testBit_xor,
    Nat.testBit_two_pow_sub_one,
    show (decide (32 - 1 - i < 32)) = true from by simp; omega]
  cases x.testBit (32 - 1 - i) <;> simp

theorem encodeWord_getD {p : ℕ} (x i : Nat) (h : i < 32) :
    (encodeWord p x).getD i 0 = (((x.testBit (32 - 1 - i)).toNat : ℕ) : ZMod p) := by
  have hb : i < (encodeWord p x).length := by
    rw [encodeWord_length]
    exact h
  rw [List.getD_eq_getElem _ 0 hb, encodeWord_getElem x i hb]

/-- Modelled from the spec: the word-level rotate-right of the
reference SHA-256, in the standard shift/or form. -/
def rotr32 (r x : Nat) : Nat := ((x >>> r) ||| (x <<< (32 - r))) % 2 ^ 32

theorem rotr32_testBit (r x k : Nat) (hr : r < 32) (hk : k < 32)
    (hx : x < 2 ^ 32) :
    (rotr32 r x).testBit k = x.testBit ((k + r) % 32) := by
  unfold rotr32
  rw [Nat.testBit_mod_two_pow, Nat.testBit_lor, Nat.testBit_shiftRight,
    Nat.testBit_shiftLeft]
  by_cases hcase : k + r < 32
  · rw [show (k + r) % 32 = r + k from by omega]
    simp only [show decide (k < 32) = true from by simp [hk],
      show decide (k ≥ 32 - r) = false from by simp; omega,
      Bool.false_and, Bool.or_false, Bool.true_and]
  · have h1 : x.testBit (r + k) = false :=
      Nat.testBit_lt_two_pow
        (lt_of_lt_of_le hx (Nat.pow_le_pow_right (by omega) (by omega)))
    rw [show (k + r) % 32 = k - (32 - r) from by omega, h1]
    simp only [show decide (k < 32) = true from by simp [hk],
      show decide (k ≥ 32 - r) = true from by simp; omega,
      Bool.true_and, Bool.false_or]

set_option maxHeartbeats 1000000 in
/-- `rotate_right` through the encoding is the word-level rotation. -/
theorem rotate_right_encodeWord {p : ℕ} (r x : Nat) (hr : r < 32)
    (hx : x < 2 ^ 32) :
    rotate_right p r (encodeWord p x) = encodeWord p (rotr32 r x) := by
  refine List.ext_getElem
    (by rw [rotate_right_length, encodeWord_length, encodeWord_length])
    (fun j h1 h2 => ?_)
  have hj : j < 32 := by rw [encodeWord_length] at h2; exact h2
  have hgd := rotate_right_getD (p := p) r (encodeWord p x) j
    (by rw [encodeWord_length]; exact hj)
  rw [encodeWord_length] at hgd
  rw [← List.getD_eq_getElem _ 0 h1, ← List.getD_eq_getElem _ 0 h2, hgd,
    encodeWord_getD x _ (by omega), encodeWord_getD (rotr32 r x) j hj,
    rotr32_testBit r x (32 - 1 - j) hr (by omega) hx,
    show 32 - 1 - ((j + (32 - r % 32)) % 32) = (32 - 1 - j + r) % 32 from by omega]

/-- `right_shift` through the encoding is the word-level logical shift. -/
theorem right_shift_encodeWord {p : ℕ} (s x : Nat) (hx : x < 2 ^ 32) :
    right_shift p s (encodeWord p x) = encodeWord p (x >>> s) := by
  unfold right_shift
  rw [encodeWord_length]
  by_cases hs : s < 32
  · rw [if_pos hs]
    refine List.ext_getElem
      (by simp [encodeWord_length]; omega) (fun i h1 h2 => ?_)
    have hi : i < 32 := by rw [encodeWord_length] at h2; exact h2
    rw [encodeWord_getElem (x >>> s) i h2, Nat.testBit_shiftRight]
    by_cases hcase : i < s
    · rw [List.getElem_append_left (by rw [List.length_replicate]; exact hcase),
        List.getElem_replicate]
      have hbit : x.testBit (s + (32 - 1 - i)) = false :=
        Nat.testBit_lt_two_pow
          (lt_of_lt_of_le hx (Nat.pow_le_pow_right (by omega) (by omega)))
      rw [hbit]
      simp
    · rw [List.getElem_append_right (by rw [List.length_replicate]; omega)]
      rw [List.getElem_take, encodeWord_getElem x _
        (by rw [encodeWord_length, List.length_replicate]; omega)]
      congr 3
      rw [List.length_replicate]
      omega
  · rw [if_neg hs]
    rw [show x >>> s = 0 from by
      rw [Nat.shiftRight_eq_div_pow]
      exact Nat.div_eq_of_lt
        (lt_of_lt_of_le hx (Nat.pow_le_pow_right (by omega) (by omega))),
      encodeWord_zero]
    rfl

theorem rippleAdd_length (p : ℕ) :
    ∀ (ra rb : List (ZMod p)) (c : ZMod p),
      (rippleAdd p ra rb c).1.length = min ra.length rb.length := by
  intro ra
  induction ra with
  | nil =>
      intro rb c
      simp [rippleAdd]
  | cons x xs ih =>
      intro rb c
      cases rb with
      | nil => simp [rippleAdd]
      | cons y ys =>
          simp only [rippleAdd, List.length_cons, ih]
          omega

theorem wrapping_add_length {p : ℕ} (a b : List (ZMod p))
    (ha : a.length = 32) (hb : b.length = 32) :
    (wrapping_add p a b).length = 32 := by
  unfold wrapping_add
  rw [List.length_reverse, rippleAdd_length]
  simp [ha, hb]

/-- `wrapping_add` through the encoding is addition modulo `2^32`. -/
theorem wrapping_add_encodeWord {p : ℕ} (hp : 3 < p) (x y : Nat)
    (hx : x < 2 ^ 32) (hy : y < 2 ^ 32) :
    wrapping_add p (encodeWord p x) (encodeWord p y)
      = encodeWord p ((x + y) % 2 ^ 32) := by
  have hall : allBits p (wrapping_add p (encodeWord p x) (encodeWord p y)) :=
    allBits_reverse
      (rippleAdd_allBits hp _ _ 0 (allBits_reverse (allBits_encodeWord p x))
        (allBits_reverse (allBits_encodeWord p y)) (Or.inl rfl)).1
  have hlen : (wrapping_add p (encodeWord p x) (encodeWord p y)).length = 32 :=
    wrapping_add_length _ _ (encodeWord_length p x) (encodeWord_length p y)
  have hval := wrapping_add_correct hp (encodeWord p x) (encodeWord p y)
    (encodeWord_length p x) (encodeWord_length p y)
    (allBits_encodeWord p x) (allBits_encodeWord p y)
  rw [wordVal_encodeWord hp x hx, wordVal_encodeWord hp y hy] at hval
  rw [← hval]
  exact (encodeWord_of_allBits hp _ hlen hall).symm

/-! ## Reference byte-oriented SHA-256 (the oracle)

Modelled from the spec: the external reference oracle, a standard
byte-oriented SHA-256 over 32-bit machine words (represented as `Nat`
values below `2^32`).  This definition follows the wording of the spec
(and FIPS 180-4), not the source; the claims compare the bit-sliced
implementation against it. -/

/-- Modelled from the spec: word addition modulo `2^32`. -/
def refAdd (x y : Nat) : Nat := (x + y) % 2 ^ 32

/-- Modelled from the spec: 32-bit complement. -/
def refNot32 (x : Nat) : Nat := x ^^^ (2 ^ 32 - 1)

/-- Modelled from the spec: the message-schedule sigma-0 function. -/
def refSmallS0 (x : Nat) : Nat := (rotr32 7 x) ^^^ (rotr32 18 x) ^^^ (x >>> 3)

/-- Modelled from the spec: the message-schedule sigma-1 function. -/
def refSmallS1 (x : Nat) : Nat := (rotr32 17 x) ^^^ (rotr32 19 x) ^^^ (x >>> 10)

/-- Modelled from the spec: one iteration of the reference
message-schedule expansion. -/
def refScheduleStep (W : List Nat) (i : Nat) : List Nat :=
  W ++ [refAdd (refAdd (refSmallS1 (W.getD (i - 2) 0)) (W.getD (i - 7) 0))
    (refAdd (refSmallS0 (W.getD (i - 15) 0)) (W.getD (i - 16) 0))]

/-- Modelled from the spec: message-schedule expansion of a block of 16
words to 64 words. -/
def refSchedule (W0 : List Nat) : List Nat :=
  (List.range' 16 48).foldl refScheduleStep W0

/-- Modelled from the spec: the eight working variables of the
reference compression loop. -/
structure RefRegs where
  a : Nat
  b : Nat
  c : Nat
  d : Nat
  e : Nat
  f : Nat
  g : Nat
  h : Nat

/-- Modelled from the spec: one round of the reference compression. -/
def refRound (K W : List Nat) (r : RefRegs) (i : Nat) : RefRegs :=
  let S1 := (rotr32 6 r.e) ^^^ (rotr32 11 r.e) ^^^ (rotr32 25 r.e)
  let Ch := (r.e &&& r.f) ^^^ ((refNot32 r.e) &&& r.g)
  let T1 := refAdd (refAdd (refAdd (refAdd r.h S1) Ch) (K.getD i 0)) (W.getD i 0)
  let S0 := (rotr32 2 r.a) ^^^ (rotr32 13 r.a) ^^^ (rotr32 22 r.a)
  let Maj := (r.a &&& r.b) ^^^ (r.a &&& r.c) ^^^ (r.b &&& r.c)
  let T2 := refAdd S0 Maj
  ⟨refAdd T1 T2, r.a, r.b, r.c, refAdd r.d T1, r.e, r.f, r.g⟩

/-- Modelled from the spec: reference compression of one block, given
as its 16 schedule words. -/
def refCompress (state : List Nat) (W0 : List Nat) : List Nat :=
  let W := refSchedule W0
  let r0 : RefRegs :=
    ⟨state.getD 0 0, state.getD 1 0, state.getD 2 0, state.getD 3 0,
     state.getD 4 0, state.getD 5 0, state.getD 6 0, state.getD 7 0⟩
  let r := (List.range 64).foldl (refRound roundConstNat W) r0
  [refAdd r.a (state.getD 0 0), refAdd r.b (state.getD 1 0),
   refAdd r.c (state.getD 2 0), refAdd r.d (state.getD 3 0),
   refAdd r.e (state.getD 4 0), refAdd r.f (state.getD 5 0),
   refAdd r.g (state.getD 6 0), refAdd r.h (state.getD 7 0)]

/-- Modelled from the spec: standard SHA-256 byte padding: `0x80`, zero
bytes to 56 mod 64, then the bit length as 8 big-endian bytes. -/
def refPadBytes (msg : List Nat) : List Nat :=
  msg ++ [0x80] ++ List.replicate ((56 + 64 - (msg.length + 1) % 64) % 64) 0
    ++ (List.range 8).map (fun i => ((8 * msg.length) >>> (8 * (7 - i))) &&& 255)

/-- Modelled from the spec: the big-endian 32-bit word formed by four
consecutive bytes. -/
def refWordAt (bytes : List Nat) (k : Nat) : Nat :=
  (bytes.getD k 0) * 2 ^ 24 + (bytes.getD (k + 1) 0) * 2 ^ 16
    + (bytes.getD (k + 2) 0) * 2 ^ 8 + bytes.getD (k + 3) 0

/-- Modelled from the spec: the 16 words of byte block `b`. -/
def refBlockWords (bytes : List Nat) (b : Nat) : List Nat :=
  (List.range 16).map (fun j => refWordAt bytes (64 * b + 4 * j))

/-- Modelled from the spec: the reference SHA-256 state after hashing a
byte message. -/
def refSha256Words (msg : List Nat) : List Nat :=
  (List.range ((refPadBytes msg).length / 64)).foldl
    (fun st b => refCompress st (refBlockWords (refPadBytes msg) b)) initConstNat

/-- Modelled from the spec: the reference SHA-256 hex digest of a byte
message. -/
def refSha256Hex (msg : List Nat) : String :=
  String.join ((refSha256Words msg).map u32ToHex8)

/-! ## Correspondence between the bit-sliced engine and the oracle -/

theorem rotr32_lt (r x : Nat) : rotr32 r x < 2 ^ 32 :=
  Nat.mod_lt _ (by norm_num)

theorem refAdd_lt (x y : Nat) : refAdd x y < 2 ^ 32 :=
  Nat.mod_lt _ (by norm_num)

theorem refNot32_lt (x : Nat) (hx : x < 2 ^ 32) : refNot32 x < 2 ^ 32 :=
  Nat.xor_lt_two_pow hx (by norm_num)

theorem shiftRight_lt32 (x s : Nat) (hx : x < 2 ^ 32) : x >>> s < 2 ^ 32 := by
  rw [Nat.shiftRight_eq_div_pow]
  exact lt_of_le_of_lt (Nat.div_le_self x _) hx

theorem land_lt32 (x y : Nat) (hx : x < 2 ^ 32) : x &&& y < 2 ^ 32 :=
  lt_of_le_of_lt Nat.and_le_left hx

theorem refSmallS0_lt (x : Nat) (hx : x < 2 ^ 32) : refSmallS0 x < 2 ^ 32 :=
  Nat.xor_lt_two_pow (Nat.xor_lt_two_pow (rotr32_lt 7 x) (rotr32_lt 18 x))
    (shiftRight_lt32 x 3 hx)

theorem refSmallS1_lt (x : Nat) (hx : x < 2 ^ 32) : refSmallS1 x < 2 ^ 32 :=
  Nat.xor_lt_two_pow (Nat.xor_lt_two_pow (rotr32_lt 17 x) (rotr32_lt 19 x))
    (shiftRight_lt32 x 10 hx)

/-- `getD` commutes with the word encoding (the default `zeroWord` is
the encoding of 0). -/
theorem getD_encodeWord_map {p : ℕ} (Wr : List Nat) (i : Nat) :
    (Wr.map (encodeWord p)).getD i (zeroWord p) = encodeWord p (Wr.getD i 0) := by
  rw [← encodeWord_zero, List.getD_map]

theorem getD_lt32 (Wr : List Nat) (hW : ∀ w ∈ Wr, w < 2 ^ 32) (i : Nat) :
    Wr.getD i 0 < 2 ^ 32 := by
  by_cases h : i < Wr.length
  · rw [List.getD_eq_getElem _ _ h]
    exact hW _ (List.getElem_mem h)
  · rw [List.getD_eq_default _ _ (by omega)]
    norm_num

theorem refSmallS0_corr {p : ℕ} (w : Nat) (hw : w < 2 ^ 32) :
    xor p (xor p (rotate_right p 7 (encodeWord p w))
        (rotate_right p 18 (encodeWord p w)))
      (right_shift p 3 (encodeWord p w))
    = encodeWord p (refSmallS0 w) := by
  rw [rotate_right_encodeWord 7 w (by norm_num) hw,
    rotate_right_encodeWord 18 w (by norm_num) hw,
    right_shift_encodeWord 3 w hw, xor_encodeWord, xor_encodeWord]
  rfl

theorem refSmallS1_corr {p : ℕ} (w : Nat) (hw : w < 2 ^ 32) :
    xor p (xor p (rotate_right p 17 (encodeWord p w))
        (rotate_right p 19 (encodeWord p w)))
      (right_shift p 10 (encodeWord p w))
    = encodeWord p (refSmallS1 w) := by
  rw [rotate_right_encodeWord 17 w (by norm_num) hw,
    rotate_right_encodeWord 19 w (by norm_num) hw,
    right_shift_encodeWord 10 w hw, xor_encodeWord, xor_encodeWord]
  rfl

/-- One schedule iteration corresponds to the reference one. -/
theorem scheduleStep_corr {p : ℕ} (hp : 3 < p) (Wr : List Nat)
    (hb : ∀ w ∈ Wr, w < 2 ^ 32) (i : Nat) :
    scheduleStep p (Wr.map (encodeWord p)) i = (refScheduleStep Wr i).map (encodeWord p) := by
  unfold scheduleStep refScheduleStep
  rw [getD_encodeWord_map, getD_encodeWord_map, getD_encodeWord_map,
    getD_encodeWord_map]
  dsimp only
  rw [refSmallS0_corr _ (getD_lt32 Wr hb (i - 15)),
    refSmallS1_corr _ (getD_lt32 Wr hb (i - 2)),
    wrapping_add_encodeWord hp _ _ (refSmallS1_lt _ (getD_lt32 Wr hb (i - 2)))
      (getD_lt32 Wr hb (i - 7)),
    wrapping_add_encodeWord hp _ _ (refSmallS0_lt _ (getD_lt32 Wr hb (i - 15)))
      (getD_lt32 Wr hb (i - 16))]
  simp only [refAdd]
  rw [wrapping_add_encodeWord hp _ _ (Nat.mod_lt _ (by norm_num))
      (Nat.mod_lt _ (by norm_num)), List.map_append]
  rfl

theorem refScheduleStep_bound (Wr : List Nat) (hb : ∀ w ∈ Wr, w < 2 ^ 32)
    (i : Nat) : ∀ w ∈ refScheduleStep Wr i, w < 2 ^ 32 := by
  intro w hw
  rcases List.mem_append.mp hw with h | h
  · exact hb w h
  · rw [List.mem_singleton.mp h]
    exact refAdd_lt _ _

/-- The full schedule fold corresponds to the reference one. -/
theorem scheduleFold_corr {p : ℕ} (hp : 3 < p) :
    ∀ (idxs : List Nat) (Wr : List Nat), (∀ w ∈ Wr, w < 2 ^ 32) →
      idxs.foldl (scheduleStep p) (Wr.map (encodeWord p))
        = (idxs.foldl refScheduleStep Wr).map (encodeWord p) := by
  intro idxs
  induction idxs with
  | nil =>
      intro Wr _
      rfl
  | cons i rest ih =>
      intro Wr hb
      rw [List.foldl_cons, List.foldl_cons, scheduleStep_corr hp Wr hb i,
        ih _ (refScheduleStep_bound Wr hb i)]

theorem refScheduleFold_bound :
    ∀ (idxs : List Nat) (Wr : List Nat), (∀ w ∈ Wr, w < 2 ^ 32) →
      ∀ w ∈ idxs.foldl refScheduleStep Wr, w < 2 ^ 32 := by
  intro idxs
  induction idxs with
  | nil =>
      intro Wr hb
      exact hb
  | cons i rest ih =>
      intro Wr hb
      rw [List.foldl_cons]
      exact ih _ (refScheduleStep_bound Wr hb i)

/-- Bit-level registers encoding the reference registers. -/
def regsOf (p : ℕ) (r : RefRegs) : Regs p :=
  ⟨encodeWord p r.a, encodeWord p r.b, encodeWord p r.c, encodeWord p r.d,
   encodeWord p r.e, encodeWord p r.f, encodeWord p r.g, encodeWord p r.h⟩

/-- All eight reference registers are 32-bit values. -/
def regsLt (r : RefRegs) : Prop :=
  r.a < 2 ^ 32 ∧ r.b < 2 ^ 32 ∧ r.c < 2 ^ 32 ∧ r.d < 2 ^ 32 ∧
  r.e < 2 ^ 32 ∧ r.f < 2 ^ 32 ∧ r.g < 2 ^ 32 ∧ r.h < 2 ^ 32

/-- One compression round corresponds to the reference round. -/
theorem roundStep_corr {p : ℕ} (hp : 3 < p) (Kr Wr : List Nat)
    (hK : ∀ w ∈ Kr, w < 2 ^ 32) (hW : ∀ w ∈ Wr, w < 2 ^ 32)
    (r : RefRegs) (hr : regsLt r) (i : Nat) :
    roundStep p (Kr.map (encodeWord p)) (Wr.map (encodeWord p)) (regsOf p r) i
      = regsOf p (refRound Kr Wr r i) := by
  obtain ⟨ha, hb, hc, hd, he, hf, hg, hh⟩ := hr
  unfold roundStep refRound regsOf
  dsimp only
  rw [getD_encodeWord_map, getD_encodeWord_map]
  rw [rotate_right_encodeWord 6 r.e (by norm_num) he,
    rotate_right_encodeWord 11 r.e (by norm_num) he,
    rotate_right_encodeWord 25 r.e (by norm_num) he,
    rotate_right_encodeWord 2 r.a (by norm_num) ha,
    rotate_right_encodeWord 13 r.a (by norm_num) ha,
    rotate_right_encodeWord 22 r.a (by norm_num) ha]
  simp only [xor_encodeWord, and_encodeWord, not_encodeWord, refNot32, refAdd]
  rw [wrapping_add_encodeWord hp r.h _ hh
      (Nat.xor_lt_two_pow (Nat.xor_lt_two_pow (rotr32_lt 6 r.e) (rotr32_lt 11 r.e))
        (rotr32_lt 25 r.e)),
    wrapping_add_encodeWord hp _ _ (Nat.mod_lt _ (by norm_num))
      (Nat.xor_lt_two_pow (land_lt32 _ _ he)
        (land_lt32 _ _ (Nat.xor_lt_two_pow he (by norm_num)))),
    wrapping_add_encodeWord hp _ _ (Nat.mod_lt _ (by norm_num))
      (getD_lt32 Kr hK i),
    wrapping_add_encodeWord hp _ _ (Nat.mod_lt _ (by norm_num))
      (getD_lt32 Wr hW i),
    wrapping_add_encodeWord hp _ _
      (Nat.xor_lt_two_pow (Nat.xor_lt_two_pow (rotr32_lt 2 r.a) (rotr32_lt 13 r.a))
        (rotr32_lt 22 r.a))
      (Nat.xor_lt_two_pow (Nat.xor_lt_two_pow (land_lt32 _ _ ha) (land_lt32 _ _ ha))
        (land_lt32 _ _ hb)),
    wrapping_add_encodeWord hp r.d _ hd (Nat.mod_lt _ (by norm_num)),
    wrapping_add_encodeWord hp _ _ (Nat.mod_lt _ (by norm_num))
      (Nat.mod_lt _ (by norm_num))]

/-- The reference round preserves the 32-bit bounds. -/
theorem refRound_lt (Kr Wr : List Nat) (r : RefRegs) (hr : regsLt r) (i : Nat) :
    regsLt (refRound Kr Wr r i) := by
  obtain ⟨ha, hb, hc, hd, he, hf, hg, hh⟩ := hr
  unfold refRound regsLt
  dsimp only
  exact ⟨refAdd_lt _ _, ha, hb, hc, refAdd_lt _ _, he, hf, hg⟩

/-- The compression fold corresponds to the reference fold. -/
theorem roundFold_corr {p : ℕ} (hp : 3 < p) (Kr Wr : List Nat)
    (hK : ∀ w ∈ Kr, w < 2 ^ 32) (hW : ∀ w ∈ Wr, w < 2 ^ 32) :
    ∀ (idxs : List Nat) (r : RefRegs), regsLt r →
      idxs.foldl (roundStep p (Kr.map (encodeWord p)) (Wr.map (encodeWord p)))
          (regsOf p r)
        = regsOf p (idxs.foldl (refRound Kr Wr) r) := by
  intro idxs
  induction idxs with
  | nil =>
      intro r _
      rfl
  | cons i rest ih =>
      intro r hr
      rw [List.foldl_cons, List.foldl_cons, roundStep_corr hp Kr Wr hK hW r hr i,
        ih _ (refRound_lt Kr Wr r hr i)]

theorem refRoundFold_lt (Kr Wr : List Nat) :
    ∀ (idxs : List Nat) (r : RefRegs), regsLt r →
      regsLt (idxs.foldl (refRound Kr Wr) r) := by
  intro idxs
  induction idxs with
  | nil =>
      intro r hr
      exact hr
  | cons i rest ih =>
      intro r hr
      rw [List.foldl_cons]
      exact ih _ (refRound_lt Kr Wr r hr i)

theorem bits_to_field_eq_map {p : ℕ} (N : Nat) (bits : List Nat)
    (h : bits.length = N) :
    bits_to_field p N bits = bits.map (fun b : ℕ => (b : ZMod p)) := by
  refine List.ext_getElem (by simp [bits_to_field, h]) (fun i h1 h2 => ?_)
  have hi : i < N := by simpa [bits_to_field] using h1
  unfold bits_to_field
  rw [List.getElem_map, List.getElem_range, List.getElem_map,
    List.getD_eq_getElem _ _ (by omega)]

/-- The 16 words encoded by the bits of one 512-bit chunk. -/
def bitsBlockWords (bits : List Nat) : List Nat :=
  (List.range 16).map (fun i => natValBE ((bits.drop (32 * i)).take 32))

theorem bitsBlockWords_lt (bits : List Nat) (hb : ∀ b ∈ bits, b ≤ 1) :
    ∀ w ∈ bitsBlockWords bits, w < 2 ^ 32 := by
  intro w hw
  obtain ⟨i, _, rfl⟩ := List.mem_map.mp hw
  have hlt := natValBE_lt ((bits.drop (32 * i)).take 32)
    (fun b hmem => hb b (List.drop_subset _ _ (List.take_subset _ _ hmem)))
  refine lt_of_lt_of_le hlt (Nat.pow_le_pow_right (by omega) ?_)
  rw [List.length_take]
  omega

theorem W0_corr {p : ℕ} (bits : List Nat) (hlen : bits.length = 512)
    (hb : ∀ b ∈ bits, b ≤ 1) :
    (List.range 16).map
        (fun i => ((bits_to_field p 512 bits).drop (32 * i)).take 32)
      = (bitsBlockWords bits).map (encodeWord p) := by
  rw [bits_to_field_eq_map 512 bits hlen]
  unfold bitsBlockWords
  rw [List.map_map]
  refine List.map_congr_left (fun i hi => ?_)
  have hi16 : i < 16 := List.mem_range.mp hi
  simp only [Function.comp_apply]
  rw [← List.map_drop, ← List.map_take,
    map_cast_encodeWord _ (by rw [List.length_take, List.length_drop]; omega)
      (fun b hmem => hb b (List.drop_subset _ _ (List.take_subset _ _ hmem)))]

theorem round_constants_eq (p : ℕ) :
    round_constants p = roundConstNat.map (encodeWord p) := by
  unfold round_constants
  refine List.map_congr_left (fun n _ => ?_)
  rw [bits_to_field_eq_map 32 _ (to_bits_be_length 32 n)]
  rfl

theorem initial_state_eq (p : ℕ) :
    initial_state p = initConstNat.map (encodeWord p) := by
  unfold initial_state
  refine List.map_congr_left (fun n _ => ?_)
  rw [bits_to_field_eq_map 32 _ (to_bits_be_length 32 n)]
  rfl

theorem roundConstNat_lt : ∀ w ∈ roundConstNat, w < 2 ^ 32 := by
  decide

theorem initConstNat_lt : ∀ w ∈ initConstNat, w < 2 ^ 32 := by
  decide

/-- Compressing one chunk corresponds to the reference compression of
the words those 512 bits encode. -/
theorem process_chunk_corr {p : ℕ} (hp : 3 < p) (bits : List Nat)
    (hblen : bits.length = 512) (hb : ∀ b ∈ bits, b ≤ 1)
    (str : List Nat) (hs : ∀ w ∈ str, w < 2 ^ 32) :
    NativeSha256.process_chunk p bits (str.map (encodeWord p)) (round_constants p)
      = (refCompress str (bitsBlockWords bits)).map (encodeWord p) := by
  unfold NativeSha256.process_chunk refCompress
  dsimp only
  have hW : scheduleW p bits
      = (refSchedule (bitsBlockWords bits)).map (encodeWord p) := by
    unfold scheduleW refSchedule
    dsimp only
    rw [W0_corr bits hblen hb, scheduleFold_corr hp _ _ (bitsBlockWords_lt bits hb)]
  have hWb : ∀ w ∈ refSchedule (bitsBlockWords bits), w < 2 ^ 32 :=
    refScheduleFold_bound _ _ (bitsBlockWords_lt bits hb)
  have hr0 : (⟨(str.map (encodeWord p)).getD 0 (zeroWord p),
      (str.map (encodeWord p)).getD 1 (zeroWord p),
      (str.map (encodeWord p)).getD 2 (zeroWord p),
      (str.map (encodeWord p)).getD 3 (zeroWord p),
      (str.map (encodeWord p)).getD 4 (zeroWord p),
      (str.map (encodeWord p)).getD 5 (zeroWord p),
      (str.map (encodeWord p)).getD 6 (zeroWord p),
      (str.map (encodeWord p)).getD 7 (zeroWord p)⟩ : Regs p)
      = regsOf p ⟨str.getD 0 0, str.getD 1 0, str.getD 2 0, str.getD 3 0,
          str.getD 4 0, str.getD 5 0, str.getD 6 0, str.getD 7 0⟩ := by
    unfold regsOf
    rw [getD_encodeWord_map, getD_encodeWord_map, getD_encodeWord_map,
      getD_encodeWord_map, getD_encodeWord_map, getD_encodeWord_map,
      getD_encodeWord_map, getD_encodeWord_map]
  have hr0lt : regsLt ⟨str.getD 0 0, str.getD 1 0, str.getD 2 0, str.getD 3 0,
      str.getD 4 0, str.getD 5 0, str.getD 6 0, str.getD 7 0⟩ :=
    ⟨getD_lt32 str hs 0, getD_lt32 str hs 1, getD_lt32 str hs 2,
     getD_lt32 str hs 3, getD_lt32 str hs 4, getD_lt32 str hs 5,
     getD_lt32 str hs 6, getD_lt32 str hs 7⟩
  rw [hW, round_constants_eq, hr0,
    roundFold_corr hp roundConstNat _ roundConstNat_lt hWb _ _ hr0lt]
  have hfold := refRoundFold_lt roundConstNat (refSchedule (bitsBlockWords bits))
    (List.range 64) _ hr0lt
  obtain ⟨hfa, hfb, hfc, hfd, hfe, hff, hfg, hfh⟩ := hfold
  unfold regsOf
  dsimp only
  rw [getD_encodeWord_map, getD_encodeWord_map, getD_encodeWord_map,
    getD_encodeWord_map, getD_encodeWord_map, getD_encodeWord_map,
    getD_encodeWord_map, getD_encodeWord_map]
  simp only [refAdd]
  rw [wrapping_add_encodeWord hp _ _ hfa (getD_lt32 str hs 0),
    wrapping_add_encodeWord hp _ _ hfb (getD_lt32 str hs 1),
    wrapping_add_encodeWord hp _ _ hfc (getD_lt32 str hs 2),
    wrapping_add_encodeWord hp _ _ hfd (getD_lt32 str hs 3),
    wrapping_add_encodeWord hp _ _ hfe (getD_lt32 str hs 4),
    wrapping_add_encodeWord hp _ _ hff (getD_lt32 str hs 5),
    wrapping_add_encodeWord hp _ _ hfg (getD_lt32 str hs 6),
    wrapping_add_encodeWord hp _ _ hfh (getD_lt32 str hs 7)]
  rfl

/-! ## Bytes and their bit sequences -/

theorem byteToBits_length (b : Nat) : (byteToBits b).length = 8 := by
  simp [byteToBits]

theorem fromBytes_cons (b : Nat) (t : List Nat) :
    fromBytes (b :: t) = byteToBits b ++ fromBytes t := by
  simp [fromBytes]

theorem fromBytes_append (B1 B2 : List Nat) :
    fromBytes (B1 ++ B2) = fromBytes B1 ++ fromBytes B2 :=
  List.flatMap_append B1 B2 byteToBits

theorem fromBytes_length (B : List Nat) :
    (fromBytes B).length = 8 * B.length := by
  induction B with
  | nil => rfl
  | cons b t ih =>
      rw [fromBytes_cons, List.length_append, byteToBits_length, ih,
        List.length_cons]
      ring

theorem fromBytes_le_one (B : List Nat) : ∀ x ∈ fromBytes B, x ≤ 1 := by
  intro x hx
  obtain ⟨b, _, hmem⟩ := List.mem_flatMap.mp hx
  rw [byteToBits_eq_to_bits_be] at hmem
  exact to_bits_be_le_one 8 b x hmem

theorem fromBytes_drop (m : Nat) :
    ∀ B : List Nat, (fromBytes B).drop (8 * m) = fromBytes (B.drop m) := by
  induction m with
  | zero =>
      intro B
      simp
  | succ m ih =>
      intro B
      cases B with
      | nil => simp [fromBytes]
      | cons b t =>
          rw [fromBytes_cons,
            show 8 * (m + 1) = (byteToBits b).length + 8 * m from by
              rw [byteToBits_length]; ring,
            List.drop_append, ih]
          rfl

theorem fromBytes_take (m : Nat) :
    ∀ B : List Nat, (fromBytes B).take (8 * m) = fromBytes (B.take m) := by
  induction m with
  | zero =>
      intro B
      simp [fromBytes]
  | succ m ih =>
      intro B
      cases B with
      | nil => simp [fromBytes]
      | cons b t =>
          rw [fromBytes_cons,
            show 8 * (m + 1) = (byteToBits b).length + 8 * m from by
              rw [byteToBits_length]; ring,
            List.take_append, ih,
            show (b :: t).take (m + 1) = b :: t.take m from rfl,
            fromBytes_cons]

theorem to_bits_be_add (a b x : Nat) :
    to_bits_be (a + b) x = to_bits_be a (x >>> b) ++ to_bits_be b x := by
  unfold to_bits_be
  rw [List.range_add, List.map_append, List.map_map]
  congr 1
  · refine List.map_congr_left (fun i hi => ?_)
    have hia : i < a := List.mem_range.mp hi
    rw [← Nat.shiftRight_add]
    congr 2
    omega
  · refine List.map_congr_left (fun j hj => ?_)
    have hjb : j < b := List.mem_range.mp hj
    simp only [Function.comp_apply]
    congr 2
    omega

theorem to_bits_be_land255 (y : Nat) :
    to_bits_be 8 (y &&& 255) = to_bits_be 8 y := by
  unfold to_bits_be
  refine List.map_congr_left (fun i hi => ?_)
  have hi8 : i < 8 := List.mem_range.mp hi
  rw [bitAt_eq_testBit, bitAt_eq_testBit,
    show (255 : ℕ) = 2 ^ 8 - 1 from rfl, Nat.testBit_land,
    Nat.testBit_two_pow_sub_one,
    show decide (8 - 1 - i < 8) = true from by simp; omega, Bool.and_true]

theorem fromBytes_beBytes (n : Nat) :
    ∀ x : Nat,
      fromBytes ((List.range n).map (fun i => (x >>> (8 * (n - 1 - i))) &&& 255))
        = to_bits_be (8 * n) x := by
  induction n with
  | zero =>
      intro x
      rfl
  | succ n ih =>
      intro x
      rw [List.range_succ_eq_map, List.map_cons, fromBytes_cons, List.map_map]
      have htail : (List.range n).map
            ((fun i => (x >>> (8 * (n + 1 - 1 - i))) &&& 255) ∘ Nat.succ)
          = (List.range n).map (fun i => (x >>> (8 * (n - 1 - i))) &&& 255) := by
        refine List.map_congr_left (fun i _ => ?_)
        simp only [Function.comp_apply]
        congr 3
        omega
      rw [htail, ih x, byteToBits_eq_to_bits_be,
        show n + 1 - 1 - 0 = n from by omega, to_bits_be_land255,
        show 8 * (n + 1) = 8 + 8 * n from by ring, to_bits_be_add]

theorem fromBytes_replicate_zero (z : Nat) :
    fromBytes (List.replicate z 0) = List.replicate (8 * z) 0 := by
  induction z with
  | zero => rfl
  | succ z ih =>
      rw [List.replicate_succ, fromBytes_cons, ih,
        show byteToBits 0 = List.replicate 8 0 from rfl,
        show 8 * (z + 1) = 8 + 8 * z from by ring, List.replicate_add]

/-- The byte-level reference padding produces exactly the minimally
padded bit sequence of `sha256_pad`. -/
theorem refPadBytes_fromBytes (msg : List Nat) :
    fromBytes (refPadBytes msg) = minPadded (fromBytes msg) := by
  unfold refPadBytes minPadded
  rw [fromBytes_append, fromBytes_append, fromBytes_append]
  have hlenmap : (List.range 8).map (fun i => ((8 * msg.length) >>> (8 * (7 - i))) &&& 255)
      = (List.range 8).map (fun i => ((8 * msg.length) >>> (8 * (8 - 1 - i))) &&& 255) := by
    refine List.map_congr_left (fun i _ => ?_)
    congr 3
  rw [hlenmap, fromBytes_beBytes 8 (8 * msg.length),
    show (8 : ℕ) * 8 = 64 from rfl, fromBytes_replicate_zero,
    show fromBytes [128] = [1] ++ List.replicate 7 0 from rfl,
    fromBytes_length]
  have hz : zeroFill (8 * msg.length + 1)
      = 7 + 8 * ((56 + 64 - (msg.length + 1) % 64) % 64) := by
    unfold zeroFill
    omega
  rw [hz, List.replicate_add]
  simp only [List.append_assoc]

theorem slice_four (B : List Nat) (m : Nat) (hm : m + 4 ≤ B.length) :
    (B.drop m).take 4
      = [B.getD m 0, B.getD (m + 1) 0, B.getD (m + 2) 0, B.getD (m + 3) 0] := by
  refine List.ext_getElem
    (by simp only [List.length_take, List.length_drop]; simp; omega)
    (fun i h1 h2 => ?_)
  have hi : i < 4 := by
    simp only [List.length_take, List.length_drop] at h1
    omega
  rw [List.getElem_take, List.getElem_drop]
  interval_cases i
  · show B[m] = B.getD m 0
    rw [List.getD_eq_getElem B 0 (show m < B.length from by omega)]
  · show B[m + 1] = B.getD (m + 1) 0
    rw [List.getD_eq_getElem B 0 (show m + 1 < B.length from by omega)]
  · show B[m + 2] = B.getD (m + 2) 0
    rw [List.getD_eq_getElem B 0 (show m + 2 < B.length from by omega)]
  · show B[m + 3] = B.getD (m + 3) 0
    rw [List.getD_eq_getElem B 0 (show m + 3 < B.length from by omega)]

theorem natValBE_byteToBits (c : Nat) (hc : c < 256) :
    natValBE (byteToBits c) = c := by
  rw [byteToBits_eq_to_bits_be, natValBE_to_bits_be]
  exact Nat.mod_eq_of_lt (lt_of_lt_of_le hc (by norm_num))

theorem refWordAt_eq (B : List Nat) (m : Nat) (hm : m + 4 ≤ B.length)
    (hB : ∀ b ∈ B, b < 256) :
    natValBE (fromBytes ((B.drop m).take 4)) = refWordAt B m := by
  have hget : ∀ k, m + k < B.length → B.getD (m + k) 0 < 256 := fun k hk => by
    rw [List.getD_eq_getElem _ _ hk]
    exact hB _ (List.getElem_mem hk)
  rw [slice_four B m hm, fromBytes_cons, fromBytes_cons, fromBytes_cons,
    fromBytes_cons, show fromBytes [] = [] from rfl, List.append_nil,
    natValBE_append, natValBE_append, natValBE_append,
    natValBE_byteToBits _ (show B.getD m 0 < 256 from hget 0 (by omega)),
    natValBE_byteToBits _ (hget 1 (by omega)),
    natValBE_byteToBits _ (hget 2 (by omega)),
    natValBE_byteToBits _ (hget 3 (by omega))]
  simp only [List.length_append, byteToBits_length]
  unfold refWordAt
  ring

theorem bitsBlockWords_fromBytes (B : List Nat) (b : Nat)
    (hB : ∀ x ∈ B, x < 256) (hlen : 64 * b + 64 ≤ B.length) :
    bitsBlockWords (fromBytes ((B.drop (64 * b)).take 64)) = refBlockWords B b := by
  unfold bitsBlockWords refBlockWords
  refine List.map_congr_left (fun j hj => ?_)
  have hj16 : j < 16 := List.mem_range.mp hj
  have hslice : ((fromBytes ((B.drop (64 * b)).take 64)).drop (32 * j)).take 32
      = fromBytes ((B.drop (64 * b + 4 * j)).take 4) := by
    rw [show 32 * j = 8 * (4 * j) from by ring, fromBytes_drop,
      show (32 : ℕ) = 8 * 4 from rfl, fromBytes_take]
    congr 1
    rw [List.drop_take, List.take_take, List.drop_drop,
      show (4 : ℕ) ⊓ (64 - 4 * j) = 4 from by omega,
      show 64 * b + 4 * j = 4 * j + 64 * b from by ring]
  rw [hslice, refWordAt_eq B _ (by omega) hB]

theorem chunks512_fromBytes (P : List Nat) (h : P.length % 64 = 0) :
    chunks512 (fromBytes P)
      = (List.range (P.length / 64)).map
          (fun i => fromBytes ((P.drop (64 * i)).take 64)) := by
  unfold chunks512
  rw [fromBytes_length,
    show (8 * P.length + 511) / 512 = P.length / 64 from by omega]
  refine List.map_congr_left (fun i _ => ?_)
  rw [show 512 * i = 8 * (64 * i) from by ring, fromBytes_drop,
    show (512 : ℕ) = 8 * 64 from rfl, fromBytes_take]

theorem refCompress_lt (st W0 : List Nat) :
    ∀ w ∈ refCompress st W0, w < 2 ^ 32 := by
  intro w hw
  unfold refCompress at hw
  dsimp only at hw
  simp only [List.mem_cons, List.not_mem_nil, or_false] at hw
  rcases hw with rfl | rfl | rfl | rfl | rfl | rfl | rfl | rfl <;>
    exact refAdd_lt _ _

/-- The chunk-by-chunk hash fold corresponds to the reference
block-by-block fold. -/
theorem compressFold_corr {p : ℕ} (hp : 3 < p) (P : List Nat)
    (hP : ∀ x ∈ P, x < 256) :
    ∀ (idxs : List Nat) (str : List Nat), (∀ w ∈ str, w < 2 ^ 32) →
      (∀ i ∈ idxs, 64 * i + 64 ≤ P.length) →
      idxs.foldl (fun state i =>
          NativeSha256.process_chunk p (fromBytes ((P.drop (64 * i)).take 64))
            state (round_constants p)) (str.map (encodeWord p))
        = (idxs.foldl (fun st i => refCompress st (refBlockWords P i)) str).map
            (encodeWord p) := by
  intro idxs
  induction idxs with
  | nil =>
      intro str _ _
      rfl
  | cons i rest ih =>
      intro str hs hbnd
      rw [List.foldl_cons, List.foldl_cons]
      have hlen64 : ((P.drop (64 * i)).take 64).length = 64 := by
        rw [List.length_take, List.length_drop]
        have := hbnd i (List.mem_cons_self i rest)
        omega
      have hstep : NativeSha256.process_chunk p
            (fromBytes ((P.drop (64 * i)).take 64)) (str.map (encodeWord p))
            (round_constants p)
          = (refCompress str (refBlockWords P i)).map (encodeWord p) := by
        rw [process_chunk_corr hp _ (by rw [fromBytes_length, hlen64])
            (fromBytes_le_one _) str hs,
          bitsBlockWords_fromBytes P i hP (hbnd i (List.mem_cons_self i rest))]
      rw [hstep, ih _ (refCompress_lt _ _)
        (fun i' hi' => hbnd i' (List.mem_cons_of_mem _ hi'))]

theorem refCompressFold_lt (P : List Nat) :
    ∀ (idxs : List Nat) (str : List Nat), (∀ w ∈ str, w < 2 ^ 32) →
      ∀ w ∈ idxs.foldl (fun st i => refCompress st (refBlockWords P i)) str,
        w < 2 ^ 32 := by
  intro idxs
  induction idxs with
  | nil =>
      intro str hs
      exact hs
  | cons i rest ih =>
      intro str hs
      rw [List.foldl_cons]
      exact ih _ (refCompress_lt _ _)

theorem bits_to_u32_lt (p : ℕ) (bits : List (ZMod p)) :
    bits_to_u32 p bits < 2 ^ 32 := by
  unfold bits_to_u32
  suffices h : ∀ (l : List (ℕ × ZMod p)) (acc : Nat), acc < 2 ^ 32 →
      l.foldl (fun acc ib =>
        acc ||| ((if ib.2 = (0 : ZMod p) then 0 else 1) <<< (31 - ib.1))) acc
      < 2 ^ 32 by
    exact h _ 0 (by norm_num)
  intro l
  induction l with
  | nil =>
      intro acc hacc
      exact hacc
  | cons ib t ih =>
      intro acc hacc
      rw [List.foldl_cons]
      refine ih _ (Nat.or_lt_two_pow hacc ?_)
      rw [Nat.shiftLeft_eq]
      have hb : (if ib.2 = (0 : ZMod p) then 0 else 1) ≤ 1 := by
        split <;> omega
      calc (if ib.2 = (0 : ZMod p) then 0 else 1) * 2 ^ (31 - ib.1)
          ≤ 1 * 2 ^ 31 :=
            Nat.mul_le_mul hb (Nat.pow_le_pow_right (by omega) (by omega))
        _ < 2 ^ 32 := by norm_num

theorem bits_to_u32_encodeWord {p : ℕ} (hp : 3 < p) (w : Nat) (hw : w < 2 ^ 32) :
    bits_to_u32 p (encodeWord p w) = w := by
  haveI := Fact.mk (show 1 < p from by omega)
  refine Nat.eq_of_testBit_eq (fun k => ?_)
  by_cases hk : k < 32
  · rw [bits_to_u32_testBit _ (encodeWord_length p w) k hk,
      encodeWord_getD w (31 - k) (by omega),
      show 32 - 1 - (31 - k) = k from by omega]
    cases hbit : w.testBit k
    · simp
    · simp
  · rw [Nat.testBit_lt_two_pow (lt_of_lt_of_le (bits_to_u32_lt p _)
        (Nat.pow_le_pow_right (by omega) (by omega))),
      Nat.testBit_lt_two_pow (lt_of_lt_of_le hw
        (Nat.pow_le_pow_right (by omega) (by omega)))]

theorem digest_to_hex_map_encodeWord {p : ℕ} (hp : 3 < p) (S : List Nat)
    (hS : ∀ w ∈ S, w < 2 ^ 32) :
    digest_to_hex p (S.map (encodeWord p)) = String.join (S.map u32ToHex8) := by
  unfold digest_to_hex
  rw [List.map_map]
  refine congrArg String.join (List.map_congr_left (fun w hw => ?_))
  simp only [Function.comp_apply]
  rw [bits_to_u32_encodeWord hp w (hS w hw)]

theorem refPadBytes_bytes_lt (msg : List Nat) (hmsg : ∀ x ∈ msg, x < 256) :
    ∀ x ∈ refPadBytes msg, x < 256 := by
  intro x hx
  unfold refPadBytes at hx
  rcases List.mem_append.mp hx with hx | hx
  · rcases List.mem_append.mp hx with hx | hx
    · rcases List.mem_append.mp hx with hx | hx
      · exact hmsg x hx
      · rw [List.mem_singleton.mp hx]
        norm_num
    · rw [List.eq_of_mem_replicate hx]
      norm_num
  · obtain ⟨i, _, rfl⟩ := List.mem_map.mp hx
    exact lt_of_le_of_lt Nat.and_le_right (by norm_num)

theorem refPadBytes_length_mod (msg : List Nat) :
    (refPadBytes msg).length % 64 = 0 := by
  unfold refPadBytes
  simp only [List.length_append, List.length_singleton, List.length_replicate,
    List.length_map, List.length_range]
  omega

/-- Oracle equivalence: hashing the minimally padded bit sequence of a
byte message and rendering it as hex produces exactly the reference
SHA-256 digest of those bytes. -/
theorem oracle_equiv {p : ℕ} (hp : 3 < p) (msg : List Nat)
    (hmsg : ∀ x ∈ msg, x < 256) :
    (sha256_pad (fromBytes msg) (pre_pad_len (fromBytes msg).length)).bind
        (fun pr => (NativeSha256.hash p pr.1).map (digest_to_hex p))
      = some (refSha256Hex msg) := by
  rw [sha256_pad_eq, if_neg (by omega), Nat.sub_self, List.replicate_zero,
    List.append_nil,
    show ((some (minPadded (fromBytes msg),
        pre_pad_len (fromBytes msg).length - 64)).bind
        (fun pr => (NativeSha256.hash p pr.1).map (digest_to_hex p)))
      = (NativeSha256.hash p (minPadded (fromBytes msg))).map (digest_to_hex p)
      from rfl,
    ← refPadBytes_fromBytes msg]
  unfold NativeSha256.hash
  have hP64 := refPadBytes_length_mod msg
  have hguard : (fromBytes (refPadBytes msg)).length % 512 = 0 := by
    rw [fromBytes_length]
    omega
  rw [if_pos hguard, chunks512_fromBytes _ hP64, List.foldl_map,
    initial_state_eq,
    compressFold_corr hp (refPadBytes msg) (refPadBytes_bytes_lt msg hmsg) _
      initConstNat initConstNat_lt
      (fun i hi => by
        have := List.mem_range.mp hi
        omega),
    Option.map_some',
    digest_to_hex_map_encodeWord hp _
      (refCompressFold_lt (refPadBytes msg) _ initConstNat initConstNat_lt)]
  rfl

/-- Claim C1: for every byte string `b`, converting `b` to bits,
padding with `sha256_pad` at the minimal capacity — `pre_pad_len`, which
is a multiple of 512 and the least capacity at which padding succeeds —
hashing with `NativeSha256::hash`, and rendering with `digest_to_hex`
yields exactly the reference SHA-256 hex digest of `b`. -/
theorem sha256_matches_reference {p : ℕ} (hp : 3 < p) (b : List Nat)
    (hb : ∀ x ∈ b, x < 256) :
    pre_pad_len (fromBytes b).length % 512 = 0 ∧
    (∀ C, (sha256_pad (fromBytes b) C).isSome = true
      → pre_pad_len (fromBytes b).length ≤ C) ∧
    (sha256_pad (fromBytes b) (pre_pad_len (fromBytes b).length)).bind
        (fun pr => (NativeSha256.hash p pr.1).map (digest_to_hex p))
      = some (refSha256Hex b) := by
  refine ⟨pre_pad_len_mod _, fun C hC => ?_, oracle_equiv hp b hb⟩
  by_contra hcon
  rw [sha256_pad_eq, if_pos (by omega)] at hC
  simp at hC

theorem sha256_matches_reference_witness :
    (3 : ℕ) < 5 ∧ (∀ x ∈ ([] : List ℕ), x < 256) ∧
    (pre_pad_len (fromBytes []).length % 512 = 0 ∧
     (∀ C, (sha256_pad (fromBytes []) C).isSome = true
       → pre_pad_len (fromBytes []).length ≤ C) ∧
     (sha256_pad (fromBytes []) (pre_pad_len (fromBytes []).length)).bind
        (fun pr => (NativeSha256.hash 5 pr.1).map (digest_to_hex 5))
      = some (refSha256Hex [])) :=
  ⟨by decide, by decide,
    sha256_matches_reference (p := 5) (by decide) [] (by decide)⟩

/-- Claim C8 is false as stated: the digest of the byte `0x00` is not
the 63-character string the spec gives (its final `d` is missing). -/
theorem sha256_zero_byte_digest_mismatch :
    (from_hex "00").bind (fun bits =>
        (sha256_pad bits 512).bind (fun pr =>
          (NativeSha256.hash 5 pr.1).map (digest_to_hex 5)))
      ≠ some "6e340b9cffb37a989ca544e6bb780a2c78901d3fb33738768511a30617afa01" := by
  rw [show from_hex "00" = some (fromBytes [0]) from by decide,
    show (512 : ℕ) = pre_pad_len (fromBytes [0]).length from by decide,
    show (some (fromBytes [0])).bind (fun bits =>
        (sha256_pad bits (pre_pad_len (fromBytes [0]).length)).bind (fun pr =>
          (NativeSha256.hash 5 pr.1).map (digest_to_hex 5)))
      = (sha256_pad (fromBytes [0]) (pre_pad_len (fromBytes [0]).length)).bind
          (fun pr => (NativeSha256.hash 5 pr.1).map (digest_to_hex 5)) from rfl,
    oracle_equiv (p := 5) (by decide) [0] (by decide)]
  decide

/-- Claim C8 (amended): hashing the single byte `0x00` (hex input
`"00"`, padded to 512 bits) and rendering with `digest_to_hex` yields
exactly the 64-character hex string
`6e340b9cffb37a989ca544e6bb780a2c78901d3fb33738768511a30617afa01d`. -/
theorem sha256_zero_byte_digest {p : ℕ} (hp : 3 < p) :
    (from_hex "00").bind (fun bits =>
        (sha256_pad bits 512).bind (fun pr =>
          (NativeSha256.hash p pr.1).map (digest_to_hex p)))
      = some "6e340b9cffb37a989ca544e6bb780a2c78901d3fb33738768511a30617afa01d" := by
  rw [show from_hex "00" = some (fromBytes [0]) from by decide,
    show (512 : ℕ) = pre_pad_len (fromBytes [0]).length from by decide,
    show (some (fromBytes [0])).bind (fun bits =>
        (sha256_pad bits (pre_pad_len (fromBytes [0]).length)).bind (fun pr =>
          (NativeSha256.hash p pr.1).map (digest_to_hex p)))
      = (sha256_pad (fromBytes [0]) (pre_pad_len (fromBytes [0]).length)).bind
          (fun pr => (NativeSha256.hash p pr.1).map (digest_to_hex p)) from rfl,
    oracle_equiv hp [0] (by decide),
    show refSha256Hex [0]
      = "6e340b9cffb37a989ca544e6bb780a2c78901d3fb33738768511a30617afa01d"
      from by decide]

theorem sha256_zero_byte_digest_witness :
    (3 : ℕ) < 5 ∧
    (from_hex "00").bind (fun bits =>
        (sha256_pad bits 512).bind (fun pr =>
          (NativeSha256.hash 5 pr.1).map (digest_to_hex 5)))
      = some "6e340b9cffb37a989ca544e6bb780a2c78901d3fb33738768511a30617afa01d" :=
  ⟨by decide, sha256_zero_byte_digest (p := 5) (by decide)⟩

end Sha256
